import Mathlib

/-!
Verification of the llm-globber archive writer, reader, normalizer, binary
classifier and signature engine (src/main.rs) against its specification.

Modelling conventions:
* Byte sequences are modelled as `List Char` (the program operates on UTF-8
  text; each `Char` stands for one byte of the ASCII fragment, which is all
  the format's delimiters use).  Crypto-facing byte strings use `List Nat`.
* Rust `BufRead::lines` (used by `clean_up_text` and `unglob_file`) is
  modelled by `rustLines`: lines are split on the newline byte, a chunk that
  was terminated by a newline additionally loses one trailing carriage
  return, and a final unterminated chunk is returned as-is.
* `writeln!` is modelled by appending the written line plus one newline.
* External collaborators (the ed25519 library's point/scalar checks, the
  glob pattern matcher) are abstract parameters of the definitions that use
  them; base64 (standard alphabet, padded) is implemented concretely.
* File-system side effects (creating directories, file handles, mmap) are
  out of the model: the writer is modelled by the byte sequence it appends,
  the reader by the list of (output path, byte content) pairs it writes.
-/

/-- The single-quote character, written via its code point to keep source
tokens readable next to the archive delimiters built from it. -/
def qc : Char := Char.ofNat 39

/-- The `'''` delimiter prefix out of which every marker line is built. -/
def tq : List Char := [qc, qc, qc]

/-- Newline byte. -/
def nl : Char := Char.ofNat 10

/-- Carriage-return byte. -/
def cr : Char := Char.ofNat 13

/-- Convert a string literal to the byte-list representation. -/
def str (s : String) : List Char := s.data

/-- A parsed line of an archive (no terminating newline). -/
abbrev Line := List Char

/-- Rust `char::is_whitespace` (the Unicode White_Space set), as used by
`str::trim` in the source. -/
def isWS (c : Char) : Bool :=
  let n := c.toNat
  (9 ≤ n ∧ n ≤ 13) ∨ n = 32 ∨ n = 133 ∨ n = 160 ∨ n = 5760 ∨
  (8192 ≤ n ∧ n ≤ 8202) ∨ n = 8232 ∨ n = 8233 ∨ n = 8239 ∨ n = 8287 ∨ n = 12288

/-- Rust `str::trim`: drop Unicode whitespace from both ends. -/
def rustTrim (l : List Char) : List Char :=
  ((l.dropWhile isWS).reverse.dropWhile isWS).reverse

/-- Strip one trailing carriage return, as `BufRead::lines` does after
removing the newline terminator of a line. -/
def stripCR (l : List Char) : List Char :=
  if l.getLast? = some cr then l.dropLast else l

/-- Worker for `rustLines`; `acc` is the portion of the current line read
so far. -/
def rustLinesGo : List Char → List Char → List (List Char)
  | [], acc => if acc = [] then [] else [acc]
  | c :: rest, acc =>
    if c = nl then stripCR acc :: rustLinesGo rest []
    else rustLinesGo rest (acc ++ [c])

/-- Model of Rust `BufRead::lines` over a whole in-memory buffer: split on
newlines; a newline-terminated chunk loses one trailing carriage return; a
final unterminated chunk is kept verbatim; no trailing empty line is
produced for a buffer ending in a newline. -/
def rustLines (s : List Char) : List (List Char) :=
  rustLinesGo s []

/-- Model of writing each line with `writeln!`: every line is emitted
followed by one newline byte. -/
def joinWriteln (ls : List (List Char)) : List Char :=
  ls.foldr (fun l acc => l ++ nl :: acc) []

/-- Model of Rust `[String]::join("\n")`: interpose a single newline
between consecutive elements. -/
def joinNL : List (List Char) → List Char
  | [] => []
  | [l] => l
  | l :: rest => l ++ nl :: joinNL rest

/-- Rust `str::strip_prefix` (returns the remainder on a match). -/
def stripPrefixL (s pre : List Char) : Option (List Char) :=
  if pre.isPrefixOf s then some (s.drop pre.length) else none

/-- Rust `str::strip_suffix` (returns the front on a match). -/
def stripSuffixL (s suf : List Char) : Option (List Char) :=
  if suf.isSuffixOf s then some (s.take (s.length - suf.length)) else none

/-- Index of the first occurrence of `pat` in `s`, as Rust `str::find`. -/
def firstIndexOfSub : List Char → List Char → Option Nat
  | [], pat => if pat = [] then some 0 else none
  | c :: rest, pat =>
    if pat.isPrefixOf (c :: rest) then some 0
    else (firstIndexOfSub rest pat).map (· + 1)

/-- Index of the last occurrence of `pat` in `s`. -/
def lastIndexOfSub : List Char → List Char → Option Nat
  | [], pat => if pat = [] then some 0 else none
  | c :: rest, pat =>
    match lastIndexOfSub rest pat with
    | some i => some (i + 1)
    | none => if pat.isPrefixOf (c :: rest) then some 0 else none

/-- Rust `str::rsplit_once`: split around the last occurrence of `sep`. -/
def rsplitOnce (s sep : List Char) : Option (List Char × List Char) :=
  (lastIndexOfSub s sep).map fun i => (s.take i, s.drop (i + sep.length))

/-- Whether `pat` occurs anywhere in `s` (Rust `str::contains`). -/
def containsSub (s pat : List Char) : Bool :=
  (lastIndexOfSub s pat).isSome

/-- Rust `Path::join` on string paths: an absolute right operand replaces
the base; otherwise a separator is inserted when needed. -/
def pathJoin (base p : List Char) : List Char :=
  if p.head? = some '/' then p
  else if base = [] ∨ base.getLast? = some '/' then base ++ p
  else base ++ '/' :: p

/-- Whether a parsed line is whitespace-only (`line.trim().is_empty()`). -/
def isBlankL (l : List Char) : Bool := (rustTrim l).isEmpty

/-! ## Binary classifier (`is_binary_data`, src/main.rs:528-544) -/

/-- A byte counted as non-printable by the classifier: NUL, or a control
code below 32 other than newline, carriage return and tab. -/
def nonPrintable (c : Char) : Bool :=
  c.toNat = 0 ∨ (c.toNat < 32 ∧ c ≠ nl ∧ c ≠ cr ∧ c ≠ Char.ofNat 9)

/-- The classifier's scan loop: `np` is the running non-printable count;
inside the branch that increments the counter, the loop returns `true`
early once the count exceeds 5 and 10% of `limit`; after the loop only the
relative threshold is rechecked. -/
def isBinaryGo (limit : Nat) : List Char → Nat → Bool
  | [], np => np * 100 / limit > 10
  | c :: rest, np =>
    if nonPrintable c then
      if np + 1 > 5 ∧ (np + 1) * 100 / limit > 10 then true
      else isBinaryGo limit rest (np + 1)
    else isBinaryGo limit rest np

/-- `is_binary_data`: sample at most the first 4096 bytes; an empty sample
is not binary; otherwise run the scan loop. -/
def is_binary_data (data : List Char) : Bool :=
  let check_limit := min data.length 4096
  if check_limit = 0 then false
  else isBinaryGo check_limit (data.take check_limit) 0

/-- Non-printable count of the sampled window, used to state properties of
the classifier. -/
def npCount (data : List Char) : Nat :=
  ((data.take (min data.length 4096)).filter nonPrintable).length

/-! ## Post-processing normalizer (`clean_up_text`, src/main.rs:392-420) -/

/-- Line pass of `clean_up_text`: a whitespace-only line is replaced by an
empty line and dropped once the run of such lines exceeds
`maxNL`; any other line is written verbatim and resets the run counter
`k`. -/
def cleanGo (maxNL : Nat) : List (List Char) → Nat → List (List Char)
  | [], _ => []
  | l :: rest, k =>
    if isBlankL l then
      if k + 1 ≤ maxNL then [] :: cleanGo maxNL rest (k + 1)
      else cleanGo maxNL rest (k + 1)
    else l :: cleanGo maxNL rest 0

/-- `cleanGo` started with an empty run. -/
def cleanLines (maxNL : Nat) (ls : List (List Char)) : List (List Char) :=
  cleanGo maxNL ls 0

/-- `clean_up_text` as a byte transformer: read the file as lines, run the
blank-collapsing pass, write every surviving line with `writeln!` (the
temp-file/rename dance is invisible at this level). -/
def clean_up_text (maxNL : Nat) (s : List Char) : List Char :=
  joinWriteln (cleanLines maxNL (rustLines s))

/-! ## Archive writer (`write_file_content`, src/main.rs:682-731, and the
public-key pseudo-entry of `run_scraper`, src/main.rs:310-327) -/

/-- Header line of an unsigned file record. -/
def headerLineU (p : List Char) : List Char :=
  tq ++ str ("--- ") ++ p ++ str (" ---")

/-- Header line of a signed file record. -/
def headerLineS (p sig : List Char) : List Char :=
  tq ++ str ("--- ") ++ p ++ str (" --- [SIGNATURE:") ++ sig ++ [']']

/-- The binary-entry sentinel line. -/
def sentinelLine : List Char := str ("[Binary file - contents omitted]")

/-- The public-key record's header line for a base64-encoded key `k`. -/
def pubKeyLine (k : List Char) : List Char :=
  tq ++ str ("--- PUBLIC_KEY --- [KEY:") ++ k ++ [']']

/-- `write_file_content`: bytes appended to the archive for one entry.
`signFn` stands for `sign_data` over the keypair (an external
deterministic function of the raw content bytes); `haveKey` is
`config.keypair.is_some()`.  A binary entry is a header plus the sentinel;
a text entry is a header, the content verbatim (skipped when empty), then
a newline, the `'''` terminator line and one blank separator line.  The
non-UTF8 placeholder fallback is not modelled: contents here are already
text. -/
def write_file_content (useSig : Bool) (signFn : List Char → List Char)
    (haveKey : Bool) (p data : List Char) (isBin : Bool) : List Char :=
  (if useSig ∧ ¬isBin ∧ haveKey then headerLineS p (signFn data)
   else headerLineU p) ++ [nl] ++
  (if isBin then sentinelLine ++ [nl]
   else (if data = [] then [] else data) ++ [nl] ++ tq ++ [nl] ++ [nl])

/-- The byte stream `run_scraper` appends for a whole run: the public-key
pseudo-entry (key header plus `'''` terminator plus blank line) when
signing is enabled and a key is present, then every file entry in input
order.  Each file is a `(path, content)` pair; `isBin` is decided by the
classifier exactly as in `process_file`. -/
def run_scraper_output (useSig : Bool) (haveKey : Bool) (pubkeyB64 : List Char)
    (signFn : List Char → List Char) (files : List (List Char × List Char)) :
    List Char :=
  (if useSig ∧ haveKey then pubKeyLine pubkeyB64 ++ [nl] ++ tq ++ [nl] ++ [nl]
   else []) ++
  (files.map (fun f =>
    write_file_content useSig signFn haveKey f.1 f.2 (is_binary_data f.2))).flatten

/-! ## File collection (`add_file_entry`, `should_process_file`,
`process_file`, src/main.rs:495-503, 620-661, 733-764) -/

/-- Cap on collected entries (src/main.rs:24). -/
def MAX_FILES : Nat := 100000

/-- One collected entry. -/
structure FileEntry where
  path : List Char
deriving DecidableEq, Repr

/-- `add_file_entry`: drop the file silently once the cap is reached. -/
def add_file_entry (entries : List FileEntry) (path : List Char) :
    List FileEntry :=
  if entries.length ≥ MAX_FILES then entries
  else entries ++ [⟨path⟩]

/-- The configuration fields consulted by the processing path. -/
structure Config where
  no_dot_files : Bool
  max_file_size : Nat
  name_pattern : List Char
  filter_files : Bool
  file_type_hash : List (List Char)
  use_signature : Bool
  haveKeypair : Bool
deriving Repr

/-- An input file as the collector hands it over: path, base name, on-disk
size in bytes, and content bytes. -/
structure SrcFile where
  path : List Char
  baseName : List Char
  size : Nat
  content : List Char
deriving Repr

/-- Portion of a file name after its last dot. -/
def afterLastDot (name : List Char) : List Char :=
  (name.reverse.takeWhile (fun c => c ≠ '.')).reverse

/-- Rust `Path::extension` on a base name: none when there is no dot, or
when the name is a dot file with no further dot; otherwise the portion
after the final dot. -/
def rustExtension (name : List Char) : Option (List Char) :=
  match name with
  | [] => none
  | c :: rest =>
    if ('.') ∈ (if c = '.' then rest else name) then some (afterLastDot name)
    else none

/-- File-name component of a path (portion after the last slash). -/
def fileNameOf (p : List Char) : List Char :=
  (p.reverse.takeWhile (fun c => c ≠ '/')).reverse

/-- `is_allowed_file_type`: with filtering off or an empty type set every
file passes; otherwise the dot-prefixed extension must be in the set. -/
def is_allowed_file_type (cfg : Config) (filePath : List Char) : Bool :=
  if ¬cfg.filter_files ∨ cfg.file_type_hash = [] then true
  else
    match rustExtension (fileNameOf filePath) with
    | some ext => cfg.file_type_hash.contains ('.' :: ext)
    | none => false

/-- `should_process_file`.  `globFn` stands for `glob_match`
(`none` models a pattern error, which the source treats as a skip).  The
checks run in source order: dot files, size limit, name pattern, type
filter. -/
def should_process_file (globFn : List Char → List Char → Option Bool)
    (cfg : Config) (f : SrcFile) : Bool :=
  if f.baseName.head? = some '.' ∧ cfg.no_dot_files then false
  else if f.size > cfg.max_file_size then false
  else if cfg.name_pattern ≠ [] ∧ globFn cfg.name_pattern f.baseName ≠ some true
    then false
  else if cfg.filter_files ∧ cfg.file_type_hash ≠ [] ∧
      ¬is_allowed_file_type cfg f.path then false
  else true

/-- `process_file` as the bytes it appends for one file: a file of at
least 1 MiB is handed to `process_file_mmap` before any filtering and is
always written; a smaller file is written only if `should_process_file`
accepts it.  (The `is_regular_file` guard is out of the model: inputs here
are regular files.) -/
def process_file (globFn : List Char → List Char → Option Bool)
    (signFn : List Char → List Char) (cfg : Config) (f : SrcFile) : List Char :=
  if f.size ≥ 1024 * 1024 then
    write_file_content cfg.use_signature signFn cfg.haveKeypair f.path f.content
      (is_binary_data f.content)
  else if should_process_file globFn cfg f then
    write_file_content cfg.use_signature signFn cfg.haveKeypair f.path f.content
      (is_binary_data f.content)
  else []

/-- Modelled from the spec: the buffered path's externally observable
behavior applied uniformly — filter with `should_process_file`, then write
the entry.  The refinement claim compares `process_file` against this. -/
def process_file_buffered_spec (globFn : List Char → List Char → Option Bool)
    (signFn : List Char → List Char) (cfg : Config) (f : SrcFile) : List Char :=
  if should_process_file globFn cfg f then
    write_file_content cfg.use_signature signFn cfg.haveKeypair f.path f.content
      (is_binary_data f.content)
  else []

/-! ## Signature engine (`verify_signature`, src/main.rs:1693-1735) -/

/-- Value of one character of the standard base64 alphabet. -/
def b64Val (c : Char) : Option Nat :=
  let n := c.toNat
  if 65 ≤ n ∧ n ≤ 90 then some (n - 65)
  else if 97 ≤ n ∧ n ≤ 122 then some (n - 97 + 26)
  else if 48 ≤ n ∧ n ≤ 57 then some (n - 48 + 52)
  else if c = '+' then some 62
  else if c = '/' then some 63
  else none

/-- Decoder for standard padded base64 (the `general_purpose::STANDARD`
engine): four-character groups, `=` padding only in the final group,
non-canonical trailing bits rejected, any other length or character
invalid. -/
def base64Decode : List Char → Option (List Nat)
  | [] => some []
  | c1 :: c2 :: c3 :: c4 :: rest =>
    match b64Val c1, b64Val c2 with
    | some v1, some v2 =>
      if c3 = '=' then
        if c4 = '=' ∧ rest = [] then
          if v2 % 16 = 0 then some [v1 * 4 + v2 / 16] else none
        else none
      else
        match b64Val c3 with
        | some v3 =>
          if c4 = '=' then
            if rest = [] then
              if v3 % 4 = 0 then some [v1 * 4 + v2 / 16, v2 % 16 * 16 + v3 / 4]
              else none
            else none
          else
            match b64Val c4 with
            | some v4 =>
              (base64Decode rest).map fun t =>
                (v1 * 4 + v2 / 16) :: (v2 % 16 * 16 + v3 / 4) :: (v3 % 4 * 64 + v4) :: t
            | none => none
        | none => none
    | _, _ => none
  | _ => none

/-- Errors of `verify_signature`, in the order the source can produce
them.  (`Signature::from_bytes` of the external ed25519 library accepts
every 64-byte input, so the source's `Invalid signature` arm is
unreachable and has no constructor here.) -/
inductive SigErr where
  | invalidEncoding
  | invalidLength (n : Nat)
  | verificationFailed
deriving DecidableEq, Repr

/-- `verify_signature`: base64-decode the signature text, check the
decoded length against the scheme's fixed 64-byte size, then hand the
signature to the library's verifier.  `cryptoVerify pk data sig` stands
for `public_key.verify(data, &signature).is_ok()`. -/
def verify_signature (cryptoVerify : List Nat → List Nat → List Nat → Bool)
    (publicKey : List Nat) (data : List Nat) (signatureStr : List Char) :
    Except SigErr Unit :=
  match base64Decode signatureStr with
  | none => .error .invalidEncoding
  | some signatureBytes =>
    if signatureBytes.length ≠ 64 then .error (.invalidLength signatureBytes.length)
    else if cryptoVerify publicKey data signatureBytes then .ok ()
    else .error .verificationFailed

/-! ## Archive reader (`unglob_file`, `parse_file_header`,
`process_extracted_file`, `write_extracted_file`,
src/main.rs:983-1272) -/

/-- Errors the reader can abort with.  The source reports them as
formatted strings; only their identity matters here. -/
inductive UErr where
  | badPubKeyMarker
  | badHeader (line : List Char)
  | sigFailed (path : List Char)
  | noFilesExtracted
deriving DecidableEq, Repr

/-- One file the reader materializes: destination path and bytes. -/
structure UEntry where
  outPath : List Char
  bytes : List Char
deriving DecidableEq, Repr

/-- `parse_file_header`: trim, demand the `'''--- ` prefix and a ` ---`
or `]` ending, strip the prefix, then take a signed header apart around
the last ` --- [SIGNATURE:` or an unsigned one by stripping ` ---`; the
recovered path is trimmed. -/
def parse_file_header (line : List Char) : Except UErr (List Char × Option (List Char)) :=
  let t := rustTrim line
  if ¬((tq ++ str ("--- ")).isPrefixOf t) ∨
      ¬((str (" ---")).isSuffixOf t ∨ t.getLast? = some ']') then
    .error (.badHeader line)
  else
    match stripPrefixL t (tq ++ str ("--- ")) with
    | none => .error (.badHeader line)
    | some content =>
      match rsplitOnce content (str (" --- [SIGNATURE:")) with
      | some (pathPart, sigPart) =>
        match stripSuffixL sigPart [']'] with
        | some signature => .ok (rustTrim pathPart, some signature)
        | none => .error (.badHeader line)
      | none =>
        match stripSuffixL content (str (" ---")) with
        | some pathPart => .ok (rustTrim pathPart, none)
        | none => .error (.badHeader line)

/-- `write_extracted_file` as the bytes written: nothing for an entry with
no captured lines; otherwise the lines joined with single newlines, plus
one final newline when the joined content does not already end with
one. -/
def write_extracted_file (content : List (List Char)) : List Char :=
  if content = [] then []
  else
    let joined := joinNL content
    joined ++ (if joined.getLast? = some nl then [] else [nl])

/-- Front normalization of `Path::components` on Unix paths: separators
and `.` components are consumed until the first real component (this is
what `Components::as_path` trims from the front of a remainder). -/
def trimSepDotLeft : List Char → List Char
  | [] => []
  | c :: rest =>
    if c = '/' then trimSepDotLeft rest
    else if c = '.' then
      match rest with
      | [] => []
      | c2 :: rest2 => if c2 = '/' then trimSepDotLeft rest2 else c :: rest
    else c :: rest

/-- The same normalization at the back of a path (trailing separators and
trailing `.` components), via the front pass on the reversed bytes: a
trailing `.` component reads as a leading `./` there. -/
def trimSepDotRight (p : List Char) : List Char :=
  (trimSepDotLeft p.reverse).reverse

/-- `Path::new(file_path).strip_prefix("test_files/")`, component-based as
in the standard library (Unix): the prefix path has the single component
`test_files`, so the strip succeeds exactly when the recorded path is
relative, does not start with a `.` component, and has first component
`test_files` — the bare path `test_files` is matched too, with empty
remainder.  The remainder is the original tail with separator and `.`
components trimmed at both ends (`Components::as_path`), so
`test_files//x` strips to `x`, never to an absolute `/x`. -/
def stripPrefixTF (p : List Char) : Option (List Char) :=
  if p.head? = some '/' then none
  else
    let first := p.takeWhile (fun c => c ≠ '/')
    if first = str (".") then none
    else if first = str ("test_files") then
      some (trimSepDotRight (trimSepDotLeft (p.drop first.length)))
    else none

/-- `process_extracted_file`: resolve the destination by stripping the
`test_files/` prefix from the recorded path, component-wise as
`Path::strip_prefix` does, and joining the remainder onto the output
base; when verification is enabled and a public key was discovered, check
a present signature against the rejoined content (a missing one is only
warned about); then write.  There is no containment check on the resolved
path. -/
def process_extracted_file (cryptoVerify : List Nat → List Nat → List Nat → Bool)
    (useSig : Bool) (pubKey : Option (List Nat)) (output_base : List Char)
    (file_path : List Char) (content : List (List Char))
    (signature : Option (List Char)) : Except UErr UEntry :=
  let relative := (stripPrefixTF file_path).getD file_path
  let outP := pathJoin output_base relative
  if useSig ∧ pubKey.isSome then
    match signature with
    | some sig =>
      match verify_signature cryptoVerify (pubKey.getD [])
          ((joinNL content).map Char.toNat) sig with
      | .ok _ => .ok ⟨outP, write_extracted_file content⟩
      | .error _ => .error (.sigFailed file_path)
    | none => .ok ⟨outP, write_extracted_file content⟩
  else .ok ⟨outP, write_extracted_file content⟩

/-- The reader's transient state (`current_file`, `current_content`,
`current_signature`, `in_file_content`, `extracted_public_key`) plus the
files finalized so far in order. -/
structure UState where
  current_file : Option (List Char)
  current_content : List (List Char)
  current_signature : Option (List Char)
  in_file_content : Bool
  pubKey : Option (List Nat)
  extracted : List UEntry

/-- Whether a line has the public-key record shape the reader looks for. -/
def pubKeyShape (line : List Char) : Bool :=
  (tq ++ str ("--- PUBLIC_KEY --- [KEY:")).isPrefixOf line ∧
  line.getLast? = some ']'

/-- The base64 text between `[KEY:` and the closing bracket. -/
def pubKeyEncoded (line : List Char) : List Char :=
  let key_start := (firstIndexOfSub line (str ("[KEY:"))).getD 0 + 5
  (line.take (line.length - 1)).drop key_start

/-- Decoding of a public-key line's base64 payload, merging the source's
skip-with-warning outcomes (bad base64, wrong length, `from_bytes`
rejection — `keyFromBytes` stands for the external
`PublicKey::from_bytes`) into `none`. -/
def pubKeyParse (keyFromBytes : List Nat → Option (List Nat)) (line : List Char) :
    Option (List Nat) :=
  match base64Decode (pubKeyEncoded line) with
  | some keyBytes =>
    if keyBytes.length = 32 then keyFromBytes keyBytes else none
  | none => none

/-- Handling of a header line: finalize any open entry (clearing the
captured content), then parse the header and open the new entry.  When no
entry was open the source does not clear the captured-content buffer. -/
def openHeader (cryptoVerify : List Nat → List Nat → List Nat → Bool)
    (useSig : Bool) (output_base line : List Char) (st : UState) :
    Except UErr UState :=
  match st.current_file with
  | some fp =>
    match process_extracted_file cryptoVerify useSig st.pubKey output_base fp
        st.current_content st.current_signature with
    | .error e => .error e
    | .ok ent =>
      match parse_file_header line with
      | .error e => .error e
      | .ok (p, sig) =>
        .ok ⟨some p, [], sig, true, st.pubKey, st.extracted ++ [ent]⟩
  | none =>
    match parse_file_header line with
    | .error e => .error e
    | .ok (p, sig) =>
      .ok ⟨some p, st.current_content, sig, true, st.pubKey, st.extracted⟩

/-- Recording a discovered public key in the parse state. -/
def setKey (st : UState) (pk : List Nat) : UState :=
  { st with pubKey := some pk }

/-- The reader's handling of a line that is neither a public-key line nor
a header: a lone terminator while in content closes the content; in
content, the binary sentinel drops the open entry and any other line is
captured verbatim; outside content the line is ignored. -/
def scanLine (line : List Char) (st : UState) : UState :=
  if line = tq ∧ st.in_file_content then
    { st with in_file_content := false }
  else if st.in_file_content ∧ st.current_file.isSome then
    if line = sentinelLine then
      { st with current_file := none, in_file_content := false }
    else
      { st with current_content := st.current_content ++ [line] }
  else st

/-- The reader's line loop.  A public-key line is examined first in any
state: on successful decoding the key is recorded and the following line
(when present) must be the terminator line; on any decoding failure the
line is skipped.  A header line finalizes any open entry, then opens a new
one.  A lone terminator while in content closes the content.  The binary
sentinel drops the open entry.  Any other line in content is captured
verbatim. -/
def unglobGo (cryptoVerify : List Nat → List Nat → List Nat → Bool)
    (keyFromBytes : List Nat → Option (List Nat)) (useSig : Bool)
    (output_base : List Char) : List (List Char) → UState → Except UErr UState
  | [], st => .ok st
  | line :: rest, st =>
    if pubKeyShape line then
      match pubKeyParse keyFromBytes line with
      | some pk =>
        match rest with
        | next :: rest2 =>
          if next ≠ tq then .error .badPubKeyMarker
          else unglobGo cryptoVerify keyFromBytes useSig output_base rest2
            (setKey st pk)
        | [] => unglobGo cryptoVerify keyFromBytes useSig output_base []
            (setKey st pk)
      | none => unglobGo cryptoVerify keyFromBytes useSig output_base rest st
    else if (tq ++ str ("--- ")).isPrefixOf line then
      match openHeader cryptoVerify useSig output_base line st with
      | .error e => .error e
      | .ok st2 => unglobGo cryptoVerify keyFromBytes useSig output_base rest st2
    else unglobGo cryptoVerify keyFromBytes useSig output_base rest (scanLine line st)

/-- `unglob_file`: run the line loop over the archive's lines from the
empty state, finalize a still-open entry at end of stream, and fail with
`noFilesExtracted` when nothing was finalized. -/
def unglob_file (cryptoVerify : List Nat → List Nat → List Nat → Bool)
    (keyFromBytes : List Nat → Option (List Nat)) (useSig : Bool)
    (output_base : List Char) (archive : List Char) : Except UErr (List UEntry) :=
  match unglobGo cryptoVerify keyFromBytes useSig output_base (rustLines archive)
      ⟨none, [], none, false, none, []⟩ with
  | .error e => .error e
  | .ok st =>
    match st.current_file with
    | some fp =>
      match process_extracted_file cryptoVerify useSig st.pubKey output_base fp
          st.current_content st.current_signature with
      | .error e => .error e
      | .ok ent => .ok (st.extracted ++ [ent])
    | none =>
      if st.extracted = [] then .error .noFilesExtracted
      else .ok st.extracted

/-! ## Path containment (stated from the claim's words, for the
containment-check claim: the code itself has no such notion) -/

/-- Split a path on slashes. -/
def splitSlash (p : List Char) : List (List Char) :=
  p.splitOn '/'

/-- Normalize path components against a stack: `.` and empty components
vanish, `..` pops when possible and otherwise escapes upward. -/
def normComponents : List (List Char) → List (List Char) → List (List Char)
  | stack, [] => stack.reverse
  | stack, c :: rest =>
    if c = [] ∨ c = str (".") then normComponents stack rest
    else if c = str ("..") then
      match stack with
      | [] => normComponents [str ("..")] rest
      | top :: stack2 =>
        if top = str ("..") then normComponents (c :: top :: stack2) rest
        else normComponents stack2 rest
    else normComponents (c :: stack) rest

/-- Modelled from the spec: whether a resolved path stays inside the
destination root (the containment check the spec requires of the
reader). -/
def pathContained (base target : List Char) : Bool :=
  (normComponents [] (splitSlash base)).isPrefixOf
    (normComponents [] (splitSlash target))

/-! ## Concrete external collaborators and statement-side predicates -/

/-- A cryptographic verifier that rejects everything (used to instantiate
statements whose runs never reach verification). -/
def noVerify : List Nat → List Nat → List Nat → Bool := fun _ _ _ => false

/-- A `PublicKey::from_bytes` stand-in that rejects everything (used to
instantiate statements whose runs never reach key parsing). -/
def noKeyParse : List Nat → Option (List Nat) := fun _ => none

/-- A signing function producing the empty signature text (used to
instantiate statements whose runs never sign). -/
def signZero : List Char → List Char := fun _ => []

/-- Whether a byte sequence ends in exactly one newline byte. -/
def endsWithOneNL (s : List Char) : Bool :=
  s.getLast? = some nl ∧ s.dropLast.getLast? ≠ some nl

/-- A content line that survives the whole pipeline untouched: no embedded
newline, no trailing carriage return, blank only if genuinely empty, and
not shaped like a header, terminator or binary sentinel line. -/
def goodLine (l : List Char) : Bool :=
  decide (nl ∉ l) && decide (l.getLast? ≠ some cr) &&
  (!isBlankL l || decide (l = [])) &&
  !(tq ++ str ("--- ")).isPrefixOf l &&
  decide (l ≠ tq) && decide (l ≠ sentinelLine)

/-- Runs of empty lines are short enough that the normalizer keeps them
all: every interior run has length at most 2 after a run of `k` already
open, and at most one trailing empty line (the writer appends one more
before the terminator). -/
def runsOK : Nat → List (List Char) → Bool
  | k, [] => decide (k ≤ 1)
  | k, l :: r => if l = [] then decide (k + 1 ≤ 2) && runsOK (k + 1) r else runsOK 0 r

/-- A recorded path that the header round-trips verbatim: nonempty, no
newline, stable under trimming, free of the signature-header split token,
and whose first component is not `test_files`, so the reader's
`Path::strip_prefix` pass leaves it alone. -/
def goodPath (p : List Char) : Bool :=
  decide (p ≠ []) && decide (nl ∉ p) && decide (rustTrim p = p) &&
  !containsSub (p ++ str (" ---")) (str (" --- [SIGNATURE:")) &&
  decide (stripPrefixTF p = none)

/-- Content (as its list of newline-terminated lines) that survives the
normalizer and the reader byte-for-byte. -/
def goodContentLines (ls : List (List Char)) : Bool :=
  decide (ls ≠ []) && ls.all goodLine && runsOK 0 ls

/-- A `(path, content lines)` input file within the proved round-trip
fragment; its byte content is `joinWriteln` of the lines and must classify
as text. -/
def goodFile (f : List Char × List (List Char)) : Bool :=
  goodPath f.1 && goodContentLines f.2 && !is_binary_data (joinWriteln f.2)

/-- The archive lines one unsigned text entry contributes: header, content
lines, the empty line produced by `writeln!("\n'''")`, the terminator, and
the blank separator. -/
def entryLines (p : List Char) (ls : List (List Char)) : List (List Char) :=
  headerLineU p :: ls ++ [[], tq, []]

/-- The archive lines one signed text entry contributes. -/
def signedEntryLines (signFn : List Char → List Char) (p : List Char)
    (ls : List (List Char)) : List (List Char) :=
  headerLineS p (signFn (joinWriteln ls)) :: ls ++ [[], tq, []]

/-- Decidable equality for `Except` results, so concrete runs of the
reader can be checked by evaluation. -/
instance (ε α : Type) [DecidableEq ε] [DecidableEq α] : DecidableEq (Except ε α) :=
  fun x y =>
  match x, y with
  | .ok a, .ok b =>
    if h : a = b then isTrue (by rw [h])
    else isFalse (by intro hc; cases hc; exact h rfl)
  | .error a, .error b =>
    if h : a = b then isTrue (by rw [h])
    else isFalse (by intro hc; cases hc; exact h rfl)
  | .ok _, .error _ => isFalse (by intro hc; cases hc)
  | .error _, .ok _ => isFalse (by intro hc; cases hc)

/-! ## General lemmas about lines and joining -/

theorem joinWriteln_nil : joinWriteln [] = [] := rfl

theorem joinWriteln_cons (l : List Char) (ls : List (List Char)) :
    joinWriteln (l :: ls) = l ++ nl :: joinWriteln ls := rfl

theorem joinWriteln_append (xs ys : List (List Char)) :
    joinWriteln (xs ++ ys) = joinWriteln xs ++ joinWriteln ys := by
  induction xs with
  | nil => rfl
  | cons l xs ih => simp [joinWriteln_cons, ih]

theorem joinWriteln_ne_nil (l : List Char) (ls : List (List Char)) :
    joinWriteln (l :: ls) ≠ [] := by
  simp [joinWriteln_cons]

theorem joinWriteln_getLast? (ls : List (List Char)) (h : ls ≠ []) :
    (joinWriteln ls).getLast? = some nl := by
  induction ls with
  | nil => exact absurd rfl h
  | cons l ls ih =>
    cases ls with
    | nil => simp [joinWriteln]
    | cons m ms =>
      rw [joinWriteln_cons,
        List.getLast?_append_of_ne_nil _
          (show nl :: joinWriteln (m :: ms) ≠ [] by simp),
        show nl :: joinWriteln (m :: ms) = [nl] ++ joinWriteln (m :: ms) from rfl,
        List.getLast?_append_of_ne_nil _ (joinWriteln_ne_nil m ms)]
      exact ih (by simp)

theorem stripCR_eq_self (l : List Char) (h : l.getLast? ≠ some cr) :
    stripCR l = l := by
  simp [stripCR, h]

theorem rustLinesGo_append_nl (l : List Char) (hl : nl ∉ l) (rest acc : List Char) :
    rustLinesGo (l ++ nl :: rest) acc = stripCR (acc ++ l) :: rustLinesGo rest [] := by
  induction l generalizing acc with
  | nil => simp [rustLinesGo]
  | cons c l ih =>
    have hc : c ≠ nl := fun h => hl (h ▸ List.mem_cons_self c l)
    have hl' : nl ∉ l := fun h => hl (List.mem_cons_of_mem c h)
    simp only [List.cons_append, rustLinesGo, if_neg hc]
    show rustLinesGo (l ++ nl :: rest) (acc ++ [c]) = _
    rw [ih hl']
    simp

theorem rustLines_joinWriteln_append (ls : List (List Char))
    (h : ∀ l ∈ ls, nl ∉ l) (t : List Char) :
    rustLines (joinWriteln ls ++ t) = ls.map stripCR ++ rustLines t := by
  induction ls with
  | nil => simp [joinWriteln]
  | cons l ls ih =>
    have h1 : nl ∉ l := h l (List.mem_cons_self l ls)
    have h2 : ∀ x ∈ ls, nl ∉ x := fun x hx => h x (List.mem_cons_of_mem l hx)
    rw [joinWriteln_cons, List.append_assoc, List.cons_append]
    show rustLinesGo (l ++ nl :: (joinWriteln ls ++ t)) [] = _
    rw [rustLinesGo_append_nl l h1]
    have h3 := ih h2
    simp only [rustLines] at h3
    simp [h3, rustLines]

theorem map_stripCR_id (ls : List (List Char))
    (hcr : ∀ l ∈ ls, l.getLast? ≠ some cr) : ls.map stripCR = ls := by
  induction ls with
  | nil => rfl
  | cons l ls ih =>
    simp [stripCR_eq_self l (hcr l (by simp)),
      ih (fun x hx => hcr x (by simp [hx]))]

theorem rustLines_joinWriteln (ls : List (List Char))
    (hnl : ∀ l ∈ ls, nl ∉ l) (hcr : ∀ l ∈ ls, l.getLast? ≠ some cr) :
    rustLines (joinWriteln ls) = ls := by
  have h := rustLines_joinWriteln_append ls hnl []
  rw [List.append_nil] at h
  have h0 : rustLines ([] : List Char) = [] := rfl
  rw [h0, List.append_nil] at h
  rw [h]
  exact map_stripCR_id ls hcr

/-! ## Classifier lemmas and claim C4 -/

theorem div100_mono (a b c : Nat) (h : a ≤ b) : a * 100 / c ≤ b * 100 / c :=
  Nat.div_le_div_right (Nat.mul_le_mul_right 100 h)

theorem isBinaryGo_eq_count (limit : Nat) (l : List Char) (np : Nat) :
    isBinaryGo limit l np =
      decide ((np + (l.filter nonPrintable).length) * 100 / limit > 10) := by
  induction l generalizing np with
  | nil => simp [isBinaryGo]
  | cons c l ih =>
    by_cases hc : nonPrintable c
    · rw [isBinaryGo, if_pos hc]
      by_cases he : np + 1 > 5 ∧ (np + 1) * 100 / limit > 10
      · rw [if_pos he]
        have hle : (np + 1) * 100 / limit ≤
            (np + ((c :: l).filter nonPrintable).length) * 100 / limit := by
          apply div100_mono
          simp [List.filter, hc]
        have : 10 < (np + ((c :: l).filter nonPrintable).length) * 100 / limit :=
          lt_of_lt_of_le he.2 hle
        simp [this]
      · rw [if_neg he, ih]
        have e : ((c :: l).filter nonPrintable).length
            = (l.filter nonPrintable).length + 1 := by simp [List.filter, hc]
        rw [e, show np + ((l.filter nonPrintable).length + 1)
            = np + 1 + (l.filter nonPrintable).length by omega]
    · rw [isBinaryGo, if_neg hc, ih]
      rw [show (c :: l).filter nonPrintable = l.filter nonPrintable by
        simp [List.filter, hc]]

/-- C4: the claim states the classifier returns true only when the
non-printable count exceeds BOTH the absolute threshold 5 and the relative
threshold of 10% of the sample.  False: a 9-byte buffer with a single NUL
has count 1 ≤ 5, yet `1 * 100 / 9 = 11 > 10` makes the final
relative-only check return true. -/
theorem c4_counterexample :
    is_binary_data (Char.ofNat 0 :: str ("aaaaaaaa")) = true ∧
    ¬ 5 < npCount (Char.ofNat 0 :: str ("aaaaaaaa")) := by decide

/-- C4 (amended): an empty buffer is classified as text, and the
classifier returns true exactly when the sample is nonempty and the
non-printable count exceeds the relative 10% threshold; the absolute
threshold 5 only gates the loop's early exit and does not constrain the
result. -/
theorem c4_amended (data : List Char) :
    (data = [] → is_binary_data data = false) ∧
    (is_binary_data data = true ↔
      data ≠ [] ∧ 10 < npCount data * 100 / min data.length 4096) := by
  constructor
  · intro h
    subst h
    rfl
  · by_cases h : data = []
    · subst h
      simp [is_binary_data]
    · have hlen : data.length ≠ 0 := fun hl => h (List.eq_nil_of_length_eq_zero hl)
      have hlim : min data.length 4096 ≠ 0 := by omega
      rw [show is_binary_data data
          = isBinaryGo (min data.length 4096) (data.take (min data.length 4096)) 0 by
        simp [is_binary_data, hlim]]
      rw [isBinaryGo_eq_count]
      simp [npCount, h]

/-- C4 witness: the amended equivalence evaluated at a concrete all-NUL
buffer (binary) and at the empty buffer (text), discharging both
hypotheses. -/
theorem c4_witness :
    is_binary_data (List.replicate 20 (Char.ofNat 0)) = true ∧
    is_binary_data [] = false := by
  constructor
  · exact (c4_amended (List.replicate 20 (Char.ofNat 0))).2.mpr (by decide)
  · exact (c4_amended []).1 rfl

/-! ## Claim C9: the entry-list cap -/

/-- C9: `add_file_entry` silently drops a file once the list holds
`MAX_FILES` (100000) entries, so the collected list never grows beyond
100000. -/
theorem c9_max_files (entries : List FileEntry) (path : List Char) :
    (entries.length = MAX_FILES → add_file_entry entries path = entries) ∧
    (entries.length ≤ MAX_FILES → (add_file_entry entries path).length ≤ MAX_FILES) := by
  constructor
  · intro h
    simp [add_file_entry, h]
  · intro h
    unfold add_file_entry
    split
    · exact h
    · rename_i hlt
      simp only [List.length_append, List.length_cons, List.length_nil]
      omega

/-- C9 witness: a list already at the cap is left unchanged and stays at
the cap. -/
theorem c9_max_files_witness :
    add_file_entry (List.replicate MAX_FILES ⟨[]⟩) [] = List.replicate MAX_FILES ⟨[]⟩ ∧
    (add_file_entry (List.replicate MAX_FILES ⟨[]⟩) []).length ≤ MAX_FILES :=
  ⟨(c9_max_files _ _).1 (by simp),
   (c9_max_files _ _).2 (by simp)⟩

/-! ## Claim C10: trailing newline of extracted files -/

theorem joinNL_cons_of_ne (l : List Char) (ls : List (List Char)) (h : ls ≠ []) :
    joinNL (l :: ls) = l ++ nl :: joinNL ls := by
  cases ls with
  | nil => exact absurd rfl h
  | cons m ms => rfl

theorem joinNL_append_singleton (ls : List (List Char)) (l : List Char) :
    joinNL (ls ++ [l]) = joinWriteln ls ++ l := by
  induction ls with
  | nil => rfl
  | cons a ls ih =>
    rw [List.cons_append, joinNL_cons_of_ne a (ls ++ [l]) (by simp), ih,
      joinWriteln_cons]
    simp

/-- C10: the claim states every extracted file with at least one captured
line ends in exactly one trailing newline.  False: captured lines
`["a", "", ""]` rejoin to `a\n\n`, which already ends in a newline (so
none is appended) but ends in two of them. -/
theorem c10_counterexample :
    write_extracted_file [str ("a"), [], []] = str ("a\n\n") ∧
    endsWithOneNL (write_extracted_file [str ("a"), [], []]) = false := by decide

/-- C10 (amended): an entry with no captured lines is written as the empty
file; an entry with captured lines is written with at least one trailing
newline, and with exactly one when the last captured line is nonempty and
the captured lines are newline-free (as `BufRead::lines` guarantees). -/
theorem c10_amended (content : List (List Char)) :
    (content = [] → write_extracted_file content = []) ∧
    (content ≠ [] → (write_extracted_file content).getLast? = some nl) ∧
    (∀ l, content.getLast? = some l → l ≠ [] → (∀ x ∈ content, nl ∉ x) →
      endsWithOneNL (write_extracted_file content) = true) := by
  refine ⟨fun h => by simp [write_extracted_file, h], ?_, ?_⟩
  · intro hne
    by_cases hc : (joinNL content).getLast? = some nl
    · simp [write_extracted_file, hne, hc]
    · simp [write_extracted_file, hne, hc, List.getLast?_concat]
  · intro l hlast hlne hnl
    rcases List.eq_nil_or_concat content with rfl | ⟨ls, m, rfl⟩
    · simp at hlast
    · rw [List.concat_eq_append] at hlast hnl ⊢
      have hm : m = l := by
        rw [List.getLast?_concat] at hlast
        simpa using hlast
      subst hm
      have hj : joinNL (ls ++ [m]) = joinWriteln ls ++ m :=
        joinNL_append_singleton ls m
      have hlastm : (joinWriteln ls ++ m).getLast? = m.getLast? :=
        List.getLast?_append_of_ne_nil _ hlne
      have hnotnl : (joinWriteln ls ++ m).getLast? ≠ some nl := by
        rw [hlastm]
        intro hc
        exact hnl m (by simp) (List.mem_of_mem_getLast? hc)
      rw [write_extracted_file, if_neg (by simp)]
      simp only [hj, hnotnl, if_neg, if_false]
      rw [show joinWriteln ls ++ m ++ [nl] = (joinWriteln ls ++ m) ++ [nl] from rfl]
      simp only [endsWithOneNL, List.getLast?_concat, List.dropLast_concat,
        decide_eq_true_eq]
      exact ⟨trivial, hnotnl⟩

/-- C10 witness: the amended statement at the empty entry and at a
one-line entry. -/
theorem c10_witness :
    write_extracted_file [] = [] ∧
    (write_extracted_file [str ("a")]).getLast? = some nl ∧
    endsWithOneNL (write_extracted_file [str ("a")]) = true :=
  ⟨(c10_amended []).1 rfl,
   (c10_amended [str ("a")]).2.1 (by decide),
   (c10_amended [str ("a")]).2.2 (str ("a")) (by decide) (by decide) (by decide)⟩

/-! ## Claim C5: the memory-mapped path versus the buffered path -/

/-- C5: the claim states the mmap path taken at or above 1 MiB is
observably identical to the buffered path, including inclusion/exclusion
under the configured filters.  False: `process_file` branches to
`process_file_mmap` before `should_process_file` runs, so a 1 MiB dot
file is written even though the filters exclude dot files. -/
theorem c5_counterexample :
    (⟨str (".big"), str (".big"), 1048576, str ("x")⟩ : SrcFile).size ≥ 1024 * 1024 ∧
    process_file (fun _ _ => some true) signZero
        ⟨true, 1073741824, [], true, [], false, false⟩
        ⟨str (".big"), str (".big"), 1048576, str ("x")⟩ ≠
      process_file_buffered_spec (fun _ _ => some true) signZero
        ⟨true, 1073741824, [], true, [], false, false⟩
        ⟨str (".big"), str (".big"), 1048576, str ("x")⟩ := by decide

/-- C5 (amended): the mmap path coincides with the buffered behavior
exactly on files the filters accept (and trivially below the threshold);
a file of at least 1 MiB that the filters reject is nevertheless written,
so the branch is not filter-transparent. -/
theorem c5_amended (globFn : List Char → List Char → Option Bool)
    (signFn : List Char → List Char) (cfg : Config) (f : SrcFile) :
    (should_process_file globFn cfg f = true →
      process_file globFn signFn cfg f = process_file_buffered_spec globFn signFn cfg f) ∧
    (f.size < 1024 * 1024 →
      process_file globFn signFn cfg f = process_file_buffered_spec globFn signFn cfg f) := by
  constructor
  · intro h
    simp [process_file, process_file_buffered_spec, h]
  · intro h
    have : ¬ f.size ≥ 1024 * 1024 := by omega
    simp [process_file, process_file_buffered_spec, this]

/-- C5 witness: the amended statement at a 2 MiB file the filters accept
and at a small file, discharging both hypotheses. -/
theorem c5_witness :
    process_file (fun _ _ => some true) signZero
        ⟨false, 1073741824, [], false, [], false, false⟩
        ⟨str ("big.c"), str ("big.c"), 2097152, str ("x")⟩ =
      process_file_buffered_spec (fun _ _ => some true) signZero
        ⟨false, 1073741824, [], false, [], false, false⟩
        ⟨str ("big.c"), str ("big.c"), 2097152, str ("x")⟩ ∧
    process_file (fun _ _ => some true) signZero
        ⟨false, 1073741824, [], false, [], false, false⟩
        ⟨str ("s.c"), str ("s.c"), 3, str ("x")⟩ =
      process_file_buffered_spec (fun _ _ => some true) signZero
        ⟨false, 1073741824, [], false, [], false, false⟩
        ⟨str ("s.c"), str ("s.c"), 3, str ("x")⟩ :=
  ⟨(c5_amended _ _ _ _).1 (by decide), (c5_amended _ _ _ _).2 (by decide)⟩

/-! ## Claim C2: containment of extracted paths -/

/-- C2: the claim states the reader checks the resolved destination path
for containment and fails such entries with a containment violation.
False: an archive entry recorded as `../evil.txt` decodes successfully
into the file `out/../evil.txt`, which escapes the destination root
`out`; no error of any kind is raised. -/
theorem c2_counterexample :
    unglob_file noVerify noKeyParse false (str ("out"))
      (clean_up_text 2 (run_scraper_output false false [] signZero
        [(str ("../evil.txt"), str ("x\n"))])) =
      .ok [⟨str ("out/../evil.txt"), str ("x\n")⟩] ∧
    pathContained (str ("out")) (str ("out/../evil.txt")) = false := by decide

/-- C2 (amended): the reader performs no containment check at all — with
verification disabled, every finalized entry is written at the output base
joined with the recorded path (after the component-based
`Path::strip_prefix("test_files/")` pass), whatever that resolves to, and
no error is possible at this step. -/
theorem c2_amended (cryptoVerify : List Nat → List Nat → List Nat → Bool)
    (pubKey : Option (List Nat)) (output_base file_path : List Char)
    (content : List (List Char)) (signature : Option (List Char)) :
    process_extracted_file cryptoVerify false pubKey output_base file_path content
        signature =
      .ok ⟨pathJoin output_base ((stripPrefixTF file_path).getD file_path),
          write_extracted_file content⟩ := by
  simp [process_extracted_file]

/-! ## Claim C3: an archive holding exactly one binary entry -/

/-- C3: the claim states decoding an archive with exactly one binary entry
succeeds and extracts one zero-length file.  False: the sentinel line makes
the reader drop the open entry (`current_file = None`), so nothing is
extracted and the run fails with the no-files-extracted error. -/
theorem c3_counterexample :
    unglob_file noVerify noKeyParse false (str ("out"))
      (write_file_content false signZero false (str ("bin.dat")) (str ("z")) true) =
      .error .noFilesExtracted := by decide

/-! ## Claim C7: signature verification error ordering -/

/-- C7: `verify_signature` fails with the invalid-encoding error when the
signature text is not valid base64; otherwise with the invalid-length
error when the decoded signature is not exactly 64 bytes; otherwise with
the verification-failed error when cryptographic verification rejects;
and succeeds otherwise. -/
theorem c7_verify_errors (cryptoVerify : List Nat → List Nat → List Nat → Bool)
    (publicKey data : List Nat) (signatureStr : List Char) :
    (base64Decode signatureStr = none →
      verify_signature cryptoVerify publicKey data signatureStr =
        .error .invalidEncoding) ∧
    (∀ b, base64Decode signatureStr = some b → b.length ≠ 64 →
      verify_signature cryptoVerify publicKey data signatureStr =
        .error (.invalidLength b.length)) ∧
    (∀ b, base64Decode signatureStr = some b → b.length = 64 →
      cryptoVerify publicKey data b = false →
      verify_signature cryptoVerify publicKey data signatureStr =
        .error .verificationFailed) ∧
    (∀ b, base64Decode signatureStr = some b → b.length = 64 →
      cryptoVerify publicKey data b = true →
      verify_signature cryptoVerify publicKey data signatureStr = .ok ()) := by
  refine ⟨?_, ?_, ?_, ?_⟩
  · intro h
    simp [verify_signature, h]
  · intro b hb hlen
    simp [verify_signature, hb, hlen]
  · intro b hb hlen hv
    simp [verify_signature, hb, hlen, hv]
  · intro b hb hlen hv
    simp [verify_signature, hb, hlen, hv]

/-- C7 witness: all four cases at concrete inputs — a non-base64 string, a
well-formed but short signature, and a 64-byte all-zero signature under a
rejecting and an accepting verifier. -/
theorem c7_verify_errors_witness :
    verify_signature noVerify [] [] (str ("!!!!")) = .error .invalidEncoding ∧
    verify_signature noVerify [] [] (str ("AAAA")) = .error (.invalidLength 3) ∧
    verify_signature noVerify [] []
      (str ("AAAAAAAAAAAAAAAAAAAAAAAAAAAAAAAAAAAAAAAAAAAAAAAAAAAAAAAAAAAAAAAAAAAAAAAAAAAAAAAAAAAAAA==")) =
      .error .verificationFailed ∧
    verify_signature (fun _ _ _ => true) [] []
      (str ("AAAAAAAAAAAAAAAAAAAAAAAAAAAAAAAAAAAAAAAAAAAAAAAAAAAAAAAAAAAAAAAAAAAAAAAAAAAAAAAAAAAAAA==")) =
      .ok () :=
  ⟨(c7_verify_errors noVerify [] [] _).1 (by decide),
   (c7_verify_errors noVerify [] [] _).2.1 [0, 0, 0] (by decide) (by decide),
   (c7_verify_errors noVerify [] [] _).2.2.1 (List.replicate 64 0) (by decide)
     (by decide) (by decide),
   (c7_verify_errors (fun _ _ _ => true) [] [] _).2.2.2 (List.replicate 64 0)
     (by decide) (by decide) (by decide)⟩

/-! ## Claim C1: encode/decode round trip -/

/-- C1: the claim states that for text files whose content avoids the
header/terminator tokens, decoding the encoded archive (normalizer pass
included) reproduces byte-identical content.  False: the file `a` with
content `x\n\n\n\n` contains no such token, yet the normalizer collapses
the blank run and decoding returns `x\n\n`. -/
theorem c1_counterexample :
    unglob_file noVerify noKeyParse false (str ("out"))
      (clean_up_text 2 (run_scraper_output false false [] signZero
        [(str ("a"), str ("x\n\n\n\n"))])) =
      .ok [⟨str ("out/a"), str ("x\n\n")⟩] ∧
    str ("x\n\n") ≠ str ("x\n\n\n\n") := by decide

/-! ## Trim and header-line lemmas -/

theorem dropWhile_eq_self_of_head (m : List Char)
    (h : ∀ c, m.head? = some c → isWS c = false) : m.dropWhile isWS = m := by
  cases m with
  | nil => rfl
  | cons c rest => simp [List.dropWhile_cons, h c rfl]

theorem rustTrim_eq_self (l : List Char)
    (h1 : ∀ c, l.head? = some c → isWS c = false)
    (h2 : ∀ c, l.getLast? = some c → isWS c = false) : rustTrim l = l := by
  unfold rustTrim
  rw [dropWhile_eq_self_of_head l h1]
  rw [dropWhile_eq_self_of_head l.reverse (by
    intro c hc
    rw [List.head?_reverse] at hc
    exact h2 c hc)]
  exact List.reverse_reverse l

theorem headerLineU_assoc (p : List Char) :
    headerLineU p = (tq ++ str ("--- ")) ++ (p ++ str (" ---")) := by
  simp [headerLineU]

theorem headerLineU_head? (p : List Char) : (headerLineU p).head? = some qc := by
  rfl

theorem headerLineU_getLast? (p : List Char) :
    (headerLineU p).getLast? = some '-' := by
  rw [show headerLineU p = (tq ++ str ("--- ") ++ p) ++ str (" ---") by
      simp [headerLineU]]
  rw [List.getLast?_append_of_ne_nil _ (by decide)]
  decide

theorem headerLineU_no_nl (p : List Char) (hp : nl ∉ p) : nl ∉ headerLineU p := by
  intro h
  rw [headerLineU_assoc] at h
  rcases List.mem_append.mp h with h | h
  · revert h
    decide
  · rcases List.mem_append.mp h with h | h
    · exact hp h
    · revert h
      decide

theorem headerLineU_trim (p : List Char) : rustTrim (headerLineU p) = headerLineU p := by
  apply rustTrim_eq_self
  · intro c hc
    rw [headerLineU_head?] at hc
    cases hc
    decide
  · intro c hc
    rw [headerLineU_getLast?] at hc
    cases hc
    decide

theorem headerLineU_ne_nil (p : List Char) : headerLineU p ≠ [] := by
  rw [headerLineU_assoc]
  simp [tq]

theorem headerLineU_not_blank (p : List Char) : isBlankL (headerLineU p) = false := by
  rw [isBlankL, headerLineU_trim]
  cases h : headerLineU p with
  | nil => exact absurd h (headerLineU_ne_nil p)
  | cons c l => rfl

theorem headerLineU_not_pubKeyShape (p : List Char) :
    pubKeyShape (headerLineU p) = false := by
  simp [pubKeyShape, headerLineU_getLast?]

theorem isPrefixOf_append_self (l m : List Char) : l.isPrefixOf (l ++ m) = true := by
  simp [List.isPrefixOf_iff_prefix]

theorem headerLineU_hasHeaderPrefix (p : List Char) :
    (tq ++ str ("--- ")).isPrefixOf (headerLineU p) = true := by
  rw [headerLineU_assoc]
  exact isPrefixOf_append_self _ _

theorem stripPrefixL_append (pre rest : List Char) :
    stripPrefixL (pre ++ rest) pre = some rest := by
  rw [stripPrefixL, if_pos (isPrefixOf_append_self pre rest)]
  simp [List.drop_left]

theorem stripSuffixL_append (front suf : List Char) :
    stripSuffixL (front ++ suf) suf = some front := by
  rw [stripSuffixL, if_pos (by simp [List.isSuffixOf_iff_suffix])]
  have : (front ++ suf).length - suf.length = front.length := by
    simp
  rw [this, List.take_left]

theorem rsplitOnce_none (s sep : List Char) (h : containsSub s sep = false) :
    rsplitOnce s sep = none := by
  have hn : lastIndexOfSub s sep = none := by
    cases hx : lastIndexOfSub s sep with
    | none => rfl
    | some i =>
      rw [containsSub, hx] at h
      simp at h
  simp [rsplitOnce, hn]

theorem parse_headerU (p : List Char) (hp : goodPath p = true) :
    parse_file_header (headerLineU p) = .ok (p, none) := by
  have hps := hp
  simp only [goodPath, Bool.and_eq_true, decide_eq_true_eq, Bool.not_eq_true'] at hps
  obtain ⟨⟨⟨⟨hne, hnl⟩, htrim⟩, hcontains⟩, hstrip⟩ := hps
  have hsuf : (str (" ---")).isSuffixOf (headerLineU p) = true := by
    rw [List.isSuffixOf_iff_suffix, headerLineU]
    exact List.suffix_append _ _
  rw [parse_file_header, headerLineU_trim]
  rw [if_neg (by
    push_neg
    exact ⟨headerLineU_hasHeaderPrefix p, Or.inl hsuf⟩)]
  rw [headerLineU_assoc, stripPrefixL_append]
  simp only [rsplitOnce_none _ _ hcontains, stripSuffixL_append, htrim]

/-! ## Good-line facts and decoder step lemmas -/

theorem goodLine_spec (l : List Char) (h : goodLine l = true) :
    nl ∉ l ∧ l.getLast? ≠ some cr ∧ (isBlankL l = true → l = []) ∧
    (tq ++ str ("--- ")).isPrefixOf l = false ∧ l ≠ tq ∧ l ≠ sentinelLine := by
  simp only [goodLine, Bool.and_eq_true, decide_eq_true_eq, Bool.or_eq_true,
    Bool.not_eq_true'] at h
  obtain ⟨⟨⟨⟨⟨h1, h2⟩, h3⟩, h4⟩, h5⟩, h6⟩ := h
  refine ⟨h1, h2, ?_, h4, h5, h6⟩
  intro hb
  rcases h3 with h3 | h3
  · rw [hb] at h3
    cases h3
  · exact h3

theorem pubKeyShape_false_of_not_header (l : List Char)
    (h : (tq ++ str ("--- ")).isPrefixOf l = false) : pubKeyShape l = false := by
  rw [pubKeyShape]
  simp only [decide_eq_false_iff_not]
  intro hc
  have h2 : (tq ++ str ("--- PUBLIC_KEY --- [KEY:")).isPrefixOf l = true := by
    simp [hc.1]
  have : (tq ++ str ("--- ")) <+: l :=
    List.IsPrefix.trans (by decide) (List.isPrefixOf_iff_prefix.mp h2)
  rw [← List.isPrefixOf_iff_prefix, h] at this
  cases this



theorem unglobGo_skip (cv : List Nat → List Nat → List Nat → Bool)
    (kf : List Nat → Option (List Nat)) (base l : List Char)
    (hpub : pubKeyShape l = false)
    (hpre : (tq ++ str ("--- ")).isPrefixOf l = false)
    (rest : List (List Char)) (st : UState) :
    unglobGo cv kf false base (l :: rest) st =
      unglobGo cv kf false base rest (scanLine l st) := by
  rw [unglobGo]
  rw [if_neg (by simp [hpub])]
  rw [if_neg (by simp [hpre])]

theorem unglobGo_step_content (cv : List Nat → List Nat → List Nat → Bool)
    (kf : List Nat → Option (List Nat)) (base l : List Char)
    (hl : goodLine l = true) (rest : List (List Char)) (p : List Char)
    (cont : List (List Char)) (sigv : Option (List Char)) (pk : Option (List Nat))
    (extr : List UEntry) :
    unglobGo cv kf false base (l :: rest) ⟨some p, cont, sigv, true, pk, extr⟩ =
      unglobGo cv kf false base rest ⟨some p, cont ++ [l], sigv, true, pk, extr⟩ := by
  obtain ⟨_, _, _, hpre, htq, hsent⟩ := goodLine_spec l hl
  rw [unglobGo_skip cv kf base l (pubKeyShape_false_of_not_header l hpre) hpre]
  congr 1
  simp only [scanLine]
  rw [if_neg (by simp [htq])]
  rw [if_pos (by simp)]
  rw [if_neg hsent]

theorem unglobGo_step_term (cv : List Nat → List Nat → List Nat → Bool)
    (kf : List Nat → Option (List Nat)) (base : List Char)
    (rest : List (List Char)) (p : List Char) (cont : List (List Char))
    (sigv : Option (List Char)) (pk : Option (List Nat)) (extr : List UEntry) :
    unglobGo cv kf false base (tq :: rest) ⟨some p, cont, sigv, true, pk, extr⟩ =
      unglobGo cv kf false base rest ⟨some p, cont, sigv, false, pk, extr⟩ := by
  rw [unglobGo_skip cv kf base tq (by decide) (by decide)]
  congr 1

theorem unglobGo_step_sep (cv : List Nat → List Nat → List Nat → Bool)
    (kf : List Nat → Option (List Nat)) (base : List Char)
    (rest : List (List Char)) (cf : Option (List Char)) (cont : List (List Char))
    (sigv : Option (List Char)) (pk : Option (List Nat)) (extr : List UEntry) :
    unglobGo cv kf false base ([] :: rest) ⟨cf, cont, sigv, false, pk, extr⟩ =
      unglobGo cv kf false base rest ⟨cf, cont, sigv, false, pk, extr⟩ := by
  rw [unglobGo_skip cv kf base [] (by decide) (by decide)]
  congr 1

theorem process_extracted_noSig (cv : List Nat → List Nat → List Nat → Bool)
    (pk : Option (List Nat)) (base fp : List Char) (cont : List (List Char))
    (sigv : Option (List Char)) :
    process_extracted_file cv false pk base fp cont sigv =
      .ok ⟨pathJoin base ((stripPrefixTF fp).getD fp),
          write_extracted_file cont⟩ := by
  simp [process_extracted_file]

theorem goodPath_strip (p : List Char) (hp : goodPath p = true) :
    (stripPrefixTF p).getD p = p := by
  simp only [goodPath, Bool.and_eq_true, decide_eq_true_eq] at hp
  rw [hp.2]
  rfl

theorem openHeader_idle (cv : List Nat → List Nat → List Nat → Bool)
    (base q : List Char) (hq : goodPath q = true) (cont : List (List Char))
    (sigv : Option (List Char)) (pk : Option (List Nat)) (extr : List UEntry) :
    openHeader cv false base (headerLineU q) ⟨none, cont, sigv, false, pk, extr⟩ =
      .ok ⟨some q, cont, none, true, pk, extr⟩ := by
  simp only [openHeader, parse_headerU q hq]

theorem openHeader_mid (cv : List Nat → List Nat → List Nat → Bool)
    (base p q : List Char) (hp : goodPath p = true) (hq : goodPath q = true)
    (cont : List (List Char)) (sigv : Option (List Char)) (pk : Option (List Nat))
    (extr : List UEntry) (inf : Bool) :
    openHeader cv false base (headerLineU q) ⟨some p, cont, sigv, inf, pk, extr⟩ =
      .ok ⟨some q, [], none, true, pk,
          extr ++ [⟨pathJoin base p, write_extracted_file cont⟩]⟩ := by
  simp only [openHeader, process_extracted_noSig, parse_headerU q hq,
    goodPath_strip p hp]

theorem unglobGo_step_header_idle (cv : List Nat → List Nat → List Nat → Bool)
    (kf : List Nat → Option (List Nat)) (base q : List Char)
    (hq : goodPath q = true) (rest : List (List Char)) (cont : List (List Char))
    (sigv : Option (List Char)) (pk : Option (List Nat)) (extr : List UEntry) :
    unglobGo cv kf false base (headerLineU q :: rest) ⟨none, cont, sigv, false, pk, extr⟩ =
      unglobGo cv kf false base rest ⟨some q, cont, none, true, pk, extr⟩ := by
  rw [unglobGo]
  rw [if_neg (by simp [headerLineU_not_pubKeyShape q])]
  rw [if_pos (by simp [headerLineU_hasHeaderPrefix q])]
  rw [openHeader_idle cv base q hq]

theorem unglobGo_step_header_mid (cv : List Nat → List Nat → List Nat → Bool)
    (kf : List Nat → Option (List Nat)) (base p q : List Char)
    (hp : goodPath p = true) (hq : goodPath q = true) (rest : List (List Char))
    (cont : List (List Char)) (sigv : Option (List Char)) (pk : Option (List Nat))
    (extr : List UEntry) (inf : Bool) :
    unglobGo cv kf false base (headerLineU q :: rest) ⟨some p, cont, sigv, inf, pk, extr⟩ =
      unglobGo cv kf false base rest
        ⟨some q, [], none, true, pk,
         extr ++ [⟨pathJoin base p, write_extracted_file cont⟩]⟩ := by
  rw [unglobGo]
  rw [if_neg (by simp [headerLineU_not_pubKeyShape q])]
  rw [if_pos (by simp [headerLineU_hasHeaderPrefix q])]
  rw [openHeader_mid cv base p q hp hq]

theorem unglobGo_collect (cv : List Nat → List Nat → List Nat → Bool)
    (kf : List Nat → Option (List Nat)) (base : List Char)
    (ms : List (List Char)) (hms : ∀ l ∈ ms, goodLine l = true) :
    ∀ (rest : List (List Char)) (p : List Char) (cont : List (List Char))
      (sigv : Option (List Char)) (pk : Option (List Nat)) (extr : List UEntry),
    unglobGo cv kf false base (ms ++ [] :: tq :: [] :: rest)
        ⟨some p, cont, sigv, true, pk, extr⟩ =
      unglobGo cv kf false base rest
        ⟨some p, cont ++ (ms ++ [[]]), sigv, false, pk, extr⟩ := by
  induction ms with
  | nil =>
    intro rest p cont sigv pk extr
    rw [List.nil_append]
    rw [unglobGo_step_content cv kf base [] (by decide)]
    rw [unglobGo_step_term, unglobGo_step_sep]
    simp
  | cons m ms ih =>
    intro rest p cont sigv pk extr
    rw [List.cons_append]
    rw [unglobGo_step_content cv kf base m (hms m (by simp))]
    rw [ih (fun l hl => hms l (by simp [hl]))]
    simp

theorem goodFile_parts (f : List Char × List (List Char)) (h : goodFile f = true) :
    goodPath f.1 = true ∧ f.2 ≠ [] ∧ (∀ l ∈ f.2, goodLine l = true) ∧
    runsOK 0 f.2 = true ∧ is_binary_data (joinWriteln f.2) = false := by
  simp only [goodFile, goodContentLines, Bool.and_eq_true, decide_eq_true_eq,
    Bool.not_eq_true', List.all_eq_true] at h
  exact ⟨h.1.1, h.1.2.1.1, fun l hl => h.1.2.1.2 l hl, h.1.2.2, h.2⟩

theorem unglobGo_entry_idle (cv : List Nat → List Nat → List Nat → Bool)
    (kf : List Nat → Option (List Nat)) (base : List Char)
    (q : List Char) (ms : List (List Char)) (hq : goodPath q = true)
    (hms : ∀ l ∈ ms, goodLine l = true) (rest : List (List Char))
    (cont : List (List Char)) (sigv : Option (List Char)) (pk : Option (List Nat))
    (extr : List UEntry) :
    unglobGo cv kf false base (entryLines q ms ++ rest)
        ⟨none, cont, sigv, false, pk, extr⟩ =
      unglobGo cv kf false base rest
        ⟨some q, cont ++ (ms ++ [[]]), none, false, pk, extr⟩ := by
  simp only [entryLines, List.cons_append, List.append_assoc, List.nil_append]
  rw [unglobGo_step_header_idle cv kf base q hq]
  exact unglobGo_collect cv kf base ms hms rest q cont none pk extr

theorem unglobGo_entry_mid (cv : List Nat → List Nat → List Nat → Bool)
    (kf : List Nat → Option (List Nat)) (base : List Char)
    (p q : List Char) (ms : List (List Char)) (hp : goodPath p = true)
    (hq : goodPath q = true) (hms : ∀ l ∈ ms, goodLine l = true)
    (rest : List (List Char)) (cont : List (List Char)) (sigv : Option (List Char))
    (pk : Option (List Nat)) (extr : List UEntry) (inf : Bool) :
    unglobGo cv kf false base (entryLines q ms ++ rest)
        ⟨some p, cont, sigv, inf, pk, extr⟩ =
      unglobGo cv kf false base rest
        ⟨some q, ms ++ [[]], none, false, pk,
         extr ++ [⟨pathJoin base p, write_extracted_file cont⟩]⟩ := by
  simp only [entryLines, List.cons_append, List.append_assoc, List.nil_append]
  rw [unglobGo_step_header_mid cv kf base p q hp hq]
  rw [unglobGo_collect cv kf base ms hms]
  simp

theorem unglobGo_files (cv : List Nat → List Nat → List Nat → Bool)
    (kf : List Nat → Option (List Nat)) (base : List Char)
    (files : List (List Char × List (List Char)))
    (hf : ∀ f ∈ files, goodFile f = true) :
    ∀ (p : List Char), goodPath p = true →
    ∀ (cont : List (List Char)) (sigv : Option (List Char)) (pk : Option (List Nat))
      (extr : List UEntry),
    ∃ (q : List Char) (contq : List (List Char)) (sigq : Option (List Char))
      (extrq : List UEntry),
      unglobGo cv kf false base
          ((files.map (fun f => entryLines f.1 f.2)).flatten)
          ⟨some p, cont, sigv, false, pk, extr⟩ =
        .ok ⟨some q, contq, sigq, false, pk, extrq⟩ ∧
      goodPath q = true ∧
      extrq ++ [⟨pathJoin base q, write_extracted_file contq⟩] =
        extr ++ [⟨pathJoin base p, write_extracted_file cont⟩] ++
          files.map (fun f =>
            ⟨pathJoin base f.1, write_extracted_file (f.2 ++ [[]])⟩) := by
  induction files with
  | nil =>
    intro p hp cont sigv pk extr
    refine ⟨p, cont, sigv, extr, ?_, hp, by simp⟩
    simp [unglobGo]
  | cons f fs ih =>
    intro p hp cont sigv pk extr
    obtain ⟨hq, _, hls, _, _⟩ := goodFile_parts f (hf f (by simp))
    rw [List.map_cons, List.flatten_cons]
    rw [List.append_assoc]  -- may not be needed
    rw [unglobGo_entry_mid cv kf base p f.1 f.2 hp hq hls]
    obtain ⟨q, contq, sigq, extrq, heq, hgq, hext⟩ :=
      ih (fun g hg => hf g (by simp [hg])) f.1 hq (f.2 ++ [[]]) none pk
        (extr ++ [⟨pathJoin base p, write_extracted_file cont⟩])
    refine ⟨q, contq, sigq, extrq, heq, hgq, ?_⟩
    rw [hext]
    simp

theorem joinWriteln_foldr_init (ls : List (List Char)) (x : List Char) :
    joinWriteln ls ++ x = ls.foldr (fun l acc => l ++ nl :: acc) x := by
  induction ls with
  | nil => simp [joinWriteln]
  | cons l ls ih => simp [joinWriteln_cons, ih]

theorem write_text_unsigned (signFn : List Char → List Char) (hk : Bool)
    (p : List Char) (ls : List (List Char)) :
    write_file_content false signFn hk p (joinWriteln ls) false =
      joinWriteln (entryLines p ls) := by
  have hdat : (if joinWriteln ls = [] then [] else joinWriteln ls) = joinWriteln ls := by
    split <;> simp_all
  rw [write_file_content, if_neg (by simp), if_neg (by simp), hdat]
  rw [entryLines, joinWriteln_append, joinWriteln_cons]
  simp [joinWriteln]

theorem encode_unsigned (hk : Bool) (k : List Char)
    (signFn : List Char → List Char)
    (files : List (List Char × List (List Char)))
    (hbin : ∀ f ∈ files, is_binary_data (joinWriteln f.2) = false) :
    run_scraper_output false hk k signFn
        (files.map (fun f => (f.1, joinWriteln f.2))) =
      joinWriteln ((files.map (fun f => entryLines f.1 f.2)).flatten) := by
  rw [run_scraper_output, if_neg (by simp)]
  rw [List.nil_append]
  induction files with
  | nil => rfl
  | cons f fs ih =>
    simp only [List.map_cons, List.flatten_cons]
    rw [hbin f (by simp)]
    rw [write_text_unsigned signFn hk f.1 f.2]
    rw [joinWriteln_append]
    rw [ih (fun g hg => hbin g (by simp [hg]))]

theorem write_extracted_append_empty (ls : List (List Char)) (h : ls ≠ []) :
    write_extracted_file (ls ++ [[]]) = joinWriteln ls := by
  rw [write_extracted_file, if_neg (by simp)]
  simp only [joinNL_append_singleton, List.append_nil]
  rw [if_pos (joinWriteln_getLast? ls h)]
  simp

theorem entryLines_line_facts (p : List Char) (ls : List (List Char))
    (hp : goodPath p = true) (hls : ∀ l ∈ ls, goodLine l = true) :
    ∀ l ∈ entryLines p ls, nl ∉ l ∧ l.getLast? ≠ some cr := by
  intro l hl
  simp only [goodPath, Bool.and_eq_true, decide_eq_true_eq] at hp
  simp only [entryLines, List.mem_append, List.mem_cons] at hl
  rcases hl with (hl | hl) | hl
  · subst hl
    refine ⟨headerLineU_no_nl p hp.1.1.1.2, ?_⟩
    rw [headerLineU_getLast?]
    decide
  · obtain ⟨h1, h2, _⟩ := goodLine_spec l (hls l hl)
    exact ⟨h1, h2⟩
  · rcases hl with hl | hl | hl
    · subst hl
      exact ⟨by simp, by simp⟩
    · subst hl
      exact ⟨by decide, by decide⟩
    · simp at hl
      subst hl
      exact ⟨by simp, by simp⟩

theorem archLines_line_facts (files : List (List Char × List (List Char)))
    (hf : ∀ f ∈ files, goodFile f = true) :
    ∀ l ∈ (files.map (fun f => entryLines f.1 f.2)).flatten,
      nl ∉ l ∧ l.getLast? ≠ some cr := by
  intro l hl
  rw [List.mem_flatten] at hl
  obtain ⟨e, he, hle⟩ := hl
  rw [List.mem_map] at he
  obtain ⟨f, hfmem, rfl⟩ := he
  obtain ⟨hp, _, hls, _, _⟩ := goodFile_parts f (hf f hfmem)
  exact entryLines_line_facts f.1 f.2 hp hls l hle

theorem rustLines_archLines (files : List (List Char × List (List Char)))
    (hf : ∀ f ∈ files, goodFile f = true) :
    rustLines (joinWriteln ((files.map (fun f => entryLines f.1 f.2)).flatten)) =
      (files.map (fun f => entryLines f.1 f.2)).flatten :=
  rustLines_joinWriteln _
    (fun l hl => (archLines_line_facts files hf l hl).1)
    (fun l hl => (archLines_line_facts files hf l hl).2)

theorem cleanGo_goodls (ls : List (List Char))
    (hls : ∀ l ∈ ls, goodLine l = true) :
    ∀ (k : Nat), runsOK k ls = true → ∀ (rest : List (List Char)),
    cleanGo 2 (ls ++ [] :: tq :: [] :: rest) k =
      ls ++ [] :: tq :: [] :: cleanGo 2 rest 1 := by
  induction ls with
  | nil =>
    intro k hrun rest
    simp only [runsOK, decide_eq_true_eq] at hrun
    rw [List.nil_append]
    rw [cleanGo, if_pos (by decide), if_pos (by simp; omega)]
    rw [cleanGo, if_neg (by decide)]
    rw [cleanGo, if_pos (by decide), if_pos (by simp)]
    rfl
  | cons l ls ih =>
    intro k hrun rest
    rw [List.cons_append]
    by_cases hl : l = []
    · subst hl
      rw [runsOK, if_pos rfl] at hrun
      simp only [Bool.and_eq_true, decide_eq_true_eq] at hrun
      rw [cleanGo, if_pos (by decide), if_pos (by omega)]
      rw [ih (fun x hx => hls x (by simp [hx])) (k + 1) hrun.2 rest]
      simp
    · have hnb : isBlankL l = false := by
        obtain ⟨_, _, hb, _, _⟩ := goodLine_spec l (hls l (by simp))
        cases hx : isBlankL l with
        | false => rfl
        | true => exact absurd (hb hx) hl
      rw [runsOK, if_neg hl] at hrun
      rw [cleanGo, if_neg (by simp [hnb])]
      rw [ih (fun x hx => hls x (by simp [hx])) 0 hrun rest]
      simp

theorem cleanGo_entry (p : List Char) (ls : List (List Char))
    (hp : goodPath p = true) (hls : ∀ l ∈ ls, goodLine l = true)
    (hrun : runsOK 0 ls = true) (k : Nat) (rest : List (List Char)) :
    cleanGo 2 (entryLines p ls ++ rest) k =
      entryLines p ls ++ cleanGo 2 rest 1 := by
  simp only [entryLines, List.cons_append, List.append_assoc, List.nil_append]
  rw [cleanGo, if_neg (by simp [headerLineU_not_blank p])]
  rw [cleanGo_goodls ls hls 0 hrun rest]

theorem cleanGo_arch (files : List (List Char × List (List Char)))
    (hf : ∀ f ∈ files, goodFile f = true) (k : Nat) :
    cleanGo 2 ((files.map (fun f => entryLines f.1 f.2)).flatten) k =
      (files.map (fun f => entryLines f.1 f.2)).flatten := by
  induction files generalizing k with
  | nil => rfl
  | cons f fs ih =>
    obtain ⟨hp, _, hls, hrun, _⟩ := goodFile_parts f (hf f (by simp))
    rw [List.map_cons, List.flatten_cons]
    rw [cleanGo_entry f.1 f.2 hp hls hrun k]
    rw [ih (fun g hg => hf g (by simp [hg])) 1]

theorem clean_id_arch (files : List (List Char × List (List Char)))
    (hf : ∀ f ∈ files, goodFile f = true) :
    clean_up_text 2 (joinWriteln ((files.map (fun f => entryLines f.1 f.2)).flatten)) =
      joinWriteln ((files.map (fun f => entryLines f.1 f.2)).flatten) := by
  rw [clean_up_text, rustLines_archLines files hf, cleanLines, cleanGo_arch files hf 0]

/-- C1 (amended): the round trip does hold byte-for-byte once the content
is restricted to what the full pipeline preserves: every file nonempty and
classified as text, content a sequence of newline-terminated lines with no
trailing carriage returns, whitespace-only lines exactly empty, runs of
empty lines short enough for the normalizer (at most two inside, at most
one trailing), no line shaped like a header, terminator or sentinel, and
paths trim-stable, without the signature token, and with a first
component other than `test_files`.
Decoding the normalized encoding then reproduces every path (joined onto
the destination) and its exact byte content. -/
theorem c1_amended (cv : List Nat → List Nat → List Nat → Bool)
    (kf : List Nat → Option (List Nat)) (signFn : List Char → List Char)
    (hk : Bool) (k : List Char) (base : List Char)
    (files : List (List Char × List (List Char)))
    (hne : files ≠ []) (hf : ∀ f ∈ files, goodFile f = true) :
    unglob_file cv kf false base
        (clean_up_text 2 (run_scraper_output false hk k signFn
          (files.map (fun f => (f.1, joinWriteln f.2))))) =
      .ok (files.map (fun f => ⟨pathJoin base f.1, joinWriteln f.2⟩)) := by
  rw [encode_unsigned hk k signFn files
    (fun g hg => (goodFile_parts g (hf g hg)).2.2.2.2)]
  rw [clean_id_arch files hf]
  rw [unglob_file]
  rw [rustLines_archLines files hf]
  cases files with
  | nil => exact absurd rfl hne
  | cons f0 fs =>
    obtain ⟨hp0, hne0, hls0, hrun0, _⟩ := goodFile_parts f0 (hf f0 (by simp))
    rw [List.map_cons, List.flatten_cons]
    rw [unglobGo_entry_idle cv kf base f0.1 f0.2 hp0 hls0]
    obtain ⟨q, contq, sigq, extrq, heq, hgq, hext⟩ :=
      unglobGo_files cv kf base fs (fun g hg => hf g (by simp [hg])) f0.1 hp0
        ([] ++ (f0.2 ++ [[]])) none none []
    rw [heq]
    simp only [process_extracted_noSig, goodPath_strip q hgq]
    rw [hext]
    have hmap : fs.map (fun f =>
        (⟨pathJoin base f.1, write_extracted_file (f.2 ++ [[]])⟩ : UEntry)) =
        fs.map (fun f => (⟨pathJoin base f.1, joinWriteln f.2⟩ : UEntry)) :=
      List.map_congr_left (fun g hg => by
        rw [write_extracted_append_empty g.2
          (goodFile_parts g (hf g (by simp [hg]))).2.1])
    simp [hmap, write_extracted_append_empty f0.2 hne0]

/-- C1 witness: the amended round trip at two concrete one-line C files,
discharging the nonemptiness and goodness hypotheses by evaluation. -/
theorem c1_amended_witness :
    unglob_file noVerify noKeyParse false (str ("out"))
        (clean_up_text 2 (run_scraper_output false false [] signZero
          (([(str ("a.c"), [str ("int x;")]), (str ("b.h"), [str ("void f();")])] :
            List (List Char × List (List Char))).map
              (fun f => (f.1, joinWriteln f.2))))) =
      .ok (([(str ("a.c"), [str ("int x;")]), (str ("b.h"), [str ("void f();")])] :
            List (List Char × List (List Char))).map
          (fun f => ⟨pathJoin (str ("out")) f.1, joinWriteln f.2⟩)) :=
  c1_amended noVerify noKeyParse signZero false [] (str ("out"))
    [(str ("a.c"), [str ("int x;")]), (str ("b.h"), [str ("void f();")])]
    (by decide) (by decide)

theorem goodPath_no_nl (p : List Char) (hp : goodPath p = true) : nl ∉ p := by
  simp only [goodPath, Bool.and_eq_true, decide_eq_true_eq] at hp
  exact hp.1.1.1.2

theorem unglobGo_step_sentinel (cv : List Nat → List Nat → List Nat → Bool)
    (kf : List Nat → Option (List Nat)) (base : List Char)
    (rest : List (List Char)) (p : List Char) (cont : List (List Char))
    (sigv : Option (List Char)) (pk : Option (List Nat)) (extr : List UEntry) :
    unglobGo cv kf false base (sentinelLine :: rest)
        ⟨some p, cont, sigv, true, pk, extr⟩ =
      unglobGo cv kf false base rest ⟨none, cont, sigv, false, pk, extr⟩ := by
  rw [unglobGo_skip cv kf base sentinelLine (by decide) (by decide)]
  congr 1

/-- C3 (amended): decoding an archive that holds exactly one binary entry
(header line plus sentinel) extracts nothing: the sentinel drops the open
entry, so the reader finalizes zero files and fails with the
no-files-extracted error instead of producing a zero-length file. -/
theorem c3_amended (cv : List Nat → List Nat → List Nat → Bool)
    (kf : List Nat → Option (List Nat)) (signFn : List Char → List Char)
    (base p data : List Char) (hp : goodPath p = true) :
    unglob_file cv kf false base
        (write_file_content false signFn false p data true) =
      .error .noFilesExtracted := by
  have hbytes : write_file_content false signFn false p data true
      = joinWriteln [headerLineU p, sentinelLine] := by
    rw [write_file_content, if_neg (by simp), if_pos rfl]
    simp [joinWriteln]
  have hlines : rustLines (joinWriteln [headerLineU p, sentinelLine])
      = [headerLineU p, sentinelLine] := by
    apply rustLines_joinWriteln
    · intro l hl
      rcases List.mem_cons.mp hl with rfl | hl
      · exact headerLineU_no_nl p (goodPath_no_nl p hp)
      · rcases List.mem_cons.mp hl with rfl | hl
        · decide
        · simp at hl
    · intro l hl
      rcases List.mem_cons.mp hl with rfl | hl
      · rw [headerLineU_getLast?]
        decide
      · rcases List.mem_cons.mp hl with rfl | hl
        · decide
        · simp at hl
  rw [hbytes, unglob_file, hlines]
  rw [unglobGo_step_header_idle cv kf base p hp]
  rw [unglobGo_step_sentinel]
  rw [unglobGo]
  rfl

/-- C3 witness: the amended statement at a concrete binary entry. -/
theorem c3_amended_witness :
    unglob_file noVerify noKeyParse false (str ("out"))
        (write_file_content false signZero false (str ("img.bin")) (str ("z")) true) =
      .error .noFilesExtracted :=
  c3_amended noVerify noKeyParse signZero (str ("out")) (str ("img.bin"))
    (str ("z")) (by decide)

/-! ## Claim C6: normalizer idempotence -/

theorem stripCR_subset (a : List Char) (x : Char) (h : x ∈ stripCR a) : x ∈ a := by
  rw [stripCR] at h
  split at h
  · exact (List.dropLast_sublist a).subset h
  · exact h

theorem rustLinesGo_no_nl (s : List Char) :
    ∀ (acc : List Char), nl ∉ acc → ∀ l ∈ rustLinesGo s acc, nl ∉ l := by
  induction s with
  | nil =>
    intro acc hacc l hl
    rw [rustLinesGo] at hl
    split at hl
    · simp at hl
    · rw [List.mem_singleton] at hl
      subst hl
      exact hacc
  | cons c rest ih =>
    intro acc hacc l hl
    rw [rustLinesGo] at hl
    split at hl
    · rcases List.mem_cons.mp hl with rfl | hl
      · intro hc
        exact hacc (stripCR_subset acc nl hc)
      · exact ih [] (by simp) l hl
    · rename_i hcn
      refine ih (acc ++ [c]) ?_ l hl
      intro hc
      rcases List.mem_append.mp hc with hc2 | hc2
      · exact hacc hc2
      · rw [List.mem_singleton] at hc2
        exact hcn hc2.symm

theorem rustLines_no_nl (s : List Char) : ∀ l ∈ rustLines s, nl ∉ l :=
  rustLinesGo_no_nl s [] (by simp)

theorem cleanGo_mem (m : Nat) :
    ∀ (ls : List (List Char)) (k : Nat) (l : List Char),
      l ∈ cleanGo m ls k → l = [] ∨ l ∈ ls := by
  intro ls
  induction ls with
  | nil =>
    intro k l hl
    rw [cleanGo] at hl
    simp at hl
  | cons x ls ih =>
    intro k l hl
    rw [cleanGo] at hl
    split at hl
    · split at hl
      · rcases List.mem_cons.mp hl with rfl | hl
        · exact Or.inl rfl
        · rcases ih (k + 1) l hl with h | h
          · exact Or.inl h
          · exact Or.inr (List.mem_cons_of_mem x h)
      · rcases ih (k + 1) l hl with h | h
        · exact Or.inl h
        · exact Or.inr (List.mem_cons_of_mem x h)
    · rcases List.mem_cons.mp hl with rfl | hl
      · exact Or.inr (List.mem_cons_self l ls)
      · rcases ih 0 l hl with h | h
        · exact Or.inl h
        · exact Or.inr (List.mem_cons_of_mem x h)

theorem cleanGo_idem (m : Nat) :
    ∀ (ls : List (List Char)) (k₁ k₂ : Nat), k₂ ≤ k₁ →
      cleanGo m (cleanGo m ls k₁) k₂ = cleanGo m ls k₁ := by
  intro ls
  induction ls with
  | nil =>
    intro k₁ k₂ _
    rfl
  | cons l ls ih =>
    intro k₁ k₂ hk
    by_cases hb : isBlankL l = true
    · rw [cleanGo, if_pos hb]
      by_cases hkeep : k₁ + 1 ≤ m
      · rw [if_pos hkeep]
        rw [cleanGo, if_pos (by decide)]
        rw [if_pos (by omega)]
        rw [ih (k₁ + 1) (k₂ + 1) (by omega)]
      · rw [if_neg hkeep]
        exact ih (k₁ + 1) k₂ (by omega)
    · rw [cleanGo, if_neg hb]
      rw [cleanGo, if_neg hb]
      rw [ih 0 0 (Nat.le_refl 0)]

theorem cleanGo_filter (m : Nat) :
    ∀ (ls : List (List Char)) (k : Nat),
      (cleanGo m ls k).filter (fun l => !isBlankL l) =
        ls.filter (fun l => !isBlankL l) := by
  intro ls
  induction ls with
  | nil =>
    intro k
    rfl
  | cons l ls ih =>
    intro k
    by_cases hb : isBlankL l = true
    · rw [cleanGo, if_pos hb]
      by_cases hkeep : k + 1 ≤ m
      · rw [if_pos hkeep]
        rw [List.filter_cons, if_neg (by decide)]
        rw [List.filter_cons, if_neg (by simp [hb])]
        exact ih (k + 1)
      · rw [if_neg hkeep]
        rw [List.filter_cons, if_neg (by simp [hb])]
        exact ih (k + 1)
    · rw [cleanGo, if_neg hb]
      rw [List.filter_cons, if_pos (by simp [hb])]
      rw [List.filter_cons, if_pos (by simp [hb])]
      rw [ih 0]

theorem rustLines_cleanLines (s : List Char)
    (hcr : ∀ l ∈ rustLines s, l.getLast? ≠ some cr) :
    rustLines (clean_up_text 2 s) = cleanLines 2 (rustLines s) := by
  rw [clean_up_text]
  apply rustLines_joinWriteln
  · intro l hl
    rcases cleanGo_mem 2 (rustLines s) 0 l hl with rfl | h
    · simp
    · exact rustLines_no_nl s l h
  · intro l hl
    rcases cleanGo_mem 2 (rustLines s) 0 l hl with rfl | h
    · simp
    · exact hcr l h

/-- C6: the claim states the blank-line collapse pass is idempotent on any
archive.  False at the byte level: the line reader strips a CRLF ending,
so `a\r\r\n` is rewritten to `a\r\n` by the first pass and to `a\n` by the
second. -/
theorem c6_counterexample :
    clean_up_text 2 (clean_up_text 2 (str ("a\r\r\n"))) ≠
      clean_up_text 2 (str ("a\r\r\n")) := by decide

/-- C6 (amended): on any input none of whose parsed lines ends in a
carriage return (every output the pass itself produces from such input is
of this shape), applying the blank-line collapse twice equals applying it
once; moreover the pass never alters non-blank lines — the subsequence of
non-blank parsed lines is preserved exactly. -/
theorem c6_amended (s : List Char)
    (hcr : ∀ l ∈ rustLines s, l.getLast? ≠ some cr) :
    clean_up_text 2 (clean_up_text 2 s) = clean_up_text 2 s ∧
    (rustLines (clean_up_text 2 s)).filter (fun l => !isBlankL l) =
      (rustLines s).filter (fun l => !isBlankL l) := by
  have hlines := rustLines_cleanLines s hcr
  constructor
  · rw [show clean_up_text 2 (clean_up_text 2 s)
        = joinWriteln (cleanLines 2 (rustLines (clean_up_text 2 s))) from rfl]
    rw [hlines, clean_up_text, cleanLines, cleanLines]
    rw [cleanGo_idem 2 (rustLines s) 0 0 (Nat.le_refl 0)]
  · rw [hlines, cleanLines, cleanGo_filter 2 (rustLines s) 0]

/-- C6 witness: the amended statement at a concrete archive fragment with
a long blank run, discharging the no-trailing-CR hypothesis by
evaluation. -/
theorem c6_amended_witness :
    clean_up_text 2 (clean_up_text 2 (str ("x\n\n\n\ny\n"))) =
      clean_up_text 2 (str ("x\n\n\n\ny\n")) ∧
    (rustLines (clean_up_text 2 (str ("x\n\n\n\ny\n")))).filter
        (fun l => !isBlankL l) =
      (rustLines (str ("x\n\n\n\ny\n"))).filter (fun l => !isBlankL l) :=
  c6_amended (str ("x\n\n\n\ny\n")) (by decide)

/-! ## Claim C8: the public-key record -/

theorem headerLineS_getLast? (p sig : List Char) :
    (headerLineS p sig).getLast? = some ']' := by
  rw [headerLineS]
  exact List.getLast?_concat _

theorem headerLineS_head? (p sig : List Char) :
    (headerLineS p sig).head? = some qc := by
  rfl

theorem headerLineS_no_nl (p sig : List Char) (hp : nl ∉ p) (hs : nl ∉ sig) :
    nl ∉ headerLineS p sig := by
  intro h
  rw [headerLineS] at h
  simp only [List.append_assoc, List.mem_append] at h
  rcases h with h | h | h | h | h
  · revert h
    decide
  · revert h
    decide
  · exact hp h
  · revert h
    decide
  · rcases h with h | h
    · exact hs h
    · revert h
      decide

theorem headerLineS_trim (p sig : List Char) :
    rustTrim (headerLineS p sig) = headerLineS p sig := by
  apply rustTrim_eq_self
  · intro c hc
    rw [headerLineS_head?] at hc
    cases hc
    decide
  · intro c hc
    rw [headerLineS_getLast?] at hc
    cases hc
    decide

theorem headerLineS_not_blank (p sig : List Char) :
    isBlankL (headerLineS p sig) = false := by
  rw [isBlankL, headerLineS_trim]
  cases h : headerLineS p sig with
  | nil =>
    have : (headerLineS p sig).getLast? = some ']' := headerLineS_getLast? p sig
    rw [h] at this
    cases this
  | cons c l => rfl

theorem pubKeyLine_assoc (k : List Char) :
    pubKeyLine k = (tq ++ str ("--- PUBLIC_KEY --- [KEY:")) ++ (k ++ [']']) := by
  simp [pubKeyLine]

theorem pubKeyLine_shape (k : List Char) : pubKeyShape (pubKeyLine k) = true := by
  rw [pubKeyShape]
  simp only [decide_eq_true_eq]
  constructor
  · rw [pubKeyLine_assoc]
    exact isPrefixOf_append_self _ _
  · rw [pubKeyLine]
    exact List.getLast?_concat _

theorem pubKeyLine_no_nl (k : List Char) (hk : nl ∉ k) : nl ∉ pubKeyLine k := by
  intro h
  rw [pubKeyLine_assoc] at h
  rcases List.mem_append.mp h with h | h
  · revert h
    decide
  · rcases List.mem_append.mp h with h | h
    · exact hk h
    · revert h
      decide

theorem pubKeyLine_getLast? (k : List Char) :
    (pubKeyLine k).getLast? = some ']' := by
  rw [pubKeyLine]
  exact List.getLast?_concat _

theorem pubKeyLine_head? (k : List Char) : (pubKeyLine k).head? = some qc := by
  rfl

theorem pubKeyLine_not_blank (k : List Char) : isBlankL (pubKeyLine k) = false := by
  rw [isBlankL]
  rw [rustTrim_eq_self _ ?h1 ?h2]
  case h1 =>
    intro c hc
    rw [pubKeyLine_head?] at hc
    cases hc
    decide
  case h2 =>
    intro c hc
    rw [pubKeyLine_getLast?] at hc
    cases hc
    decide
  cases h : pubKeyLine k with
  | nil =>
    have := pubKeyLine_getLast? k
    rw [h] at this
    cases this
  | cons c l => rfl

theorem write_text_signed (signFn : List Char → List Char)
    (p : List Char) (ls : List (List Char)) :
    write_file_content true signFn true p (joinWriteln ls) false =
      joinWriteln (signedEntryLines signFn p ls) := by
  have hdat : (if joinWriteln ls = [] then [] else joinWriteln ls) = joinWriteln ls := by
    split <;> simp_all
  rw [write_file_content, if_pos (by simp), if_neg (by simp), hdat]
  rw [signedEntryLines, joinWriteln_append, joinWriteln_cons]
  simp [joinWriteln]

theorem encode_signed_body (signFn : List Char → List Char)
    (files : List (List Char × List (List Char)))
    (hbin : ∀ f ∈ files, is_binary_data (joinWriteln f.2) = false) :
    ((files.map (fun f => (f.1, joinWriteln f.2))).map (fun f =>
        write_file_content true signFn true f.1 f.2 (is_binary_data f.2))).flatten =
      joinWriteln ((files.map (fun f => signedEntryLines signFn f.1 f.2)).flatten) := by
  induction files with
  | nil => rfl
  | cons f fs ih =>
    simp only [List.map_cons, List.flatten_cons]
    rw [hbin f (by simp)]
    rw [write_text_signed signFn f.1 f.2]
    rw [joinWriteln_append]
    rw [ih (fun g hg => hbin g (by simp [hg]))]

theorem encode_signed (k : List Char) (signFn : List Char → List Char)
    (files : List (List Char × List (List Char)))
    (hbin : ∀ f ∈ files, is_binary_data (joinWriteln f.2) = false) :
    run_scraper_output true true k signFn
        (files.map (fun f => (f.1, joinWriteln f.2))) =
      joinWriteln (pubKeyLine k :: tq :: [] ::
        (files.map (fun f => signedEntryLines signFn f.1 f.2)).flatten) := by
  rw [run_scraper_output, if_pos (by simp)]
  rw [encode_signed_body signFn files hbin]
  rw [show (pubKeyLine k :: tq :: [] ::
        (files.map (fun f => signedEntryLines signFn f.1 f.2)).flatten :
        List (List Char))
      = [pubKeyLine k, tq, []] ++
        (files.map (fun f => signedEntryLines signFn f.1 f.2)).flatten by simp]
  rw [joinWriteln_append]
  simp [joinWriteln]

theorem signedEntryLines_line_facts (signFn : List Char → List Char)
    (p : List Char) (ls : List (List Char)) (hp : goodPath p = true)
    (hls : ∀ l ∈ ls, goodLine l = true) (hsig : nl ∉ signFn (joinWriteln ls)) :
    ∀ l ∈ signedEntryLines signFn p ls, nl ∉ l ∧ l.getLast? ≠ some cr := by
  intro l hl
  simp only [signedEntryLines, List.mem_append, List.mem_cons] at hl
  rcases hl with (hl | hl) | hl
  · subst hl
    refine ⟨headerLineS_no_nl p _ (goodPath_no_nl p hp) hsig, ?_⟩
    rw [headerLineS_getLast?]
    decide
  · obtain ⟨h1, h2, _⟩ := goodLine_spec l (hls l hl)
    exact ⟨h1, h2⟩
  · rcases hl with hl | hl | hl
    · subst hl
      exact ⟨by simp, by simp⟩
    · subst hl
      exact ⟨by decide, by decide⟩
    · simp at hl
      subst hl
      exact ⟨by simp, by simp⟩

theorem signedArch_line_facts (signFn : List Char → List Char) (k : List Char)
    (files : List (List Char × List (List Char)))
    (hf : ∀ f ∈ files, goodFile f = true)
    (hsig : ∀ f ∈ files, nl ∉ signFn (joinWriteln f.2)) (hk : nl ∉ k) :
    ∀ l ∈ (pubKeyLine k :: tq :: [] ::
        (files.map (fun f => signedEntryLines signFn f.1 f.2)).flatten),
      nl ∉ l ∧ l.getLast? ≠ some cr := by
  intro l hl
  rcases List.mem_cons.mp hl with rfl | hl
  · refine ⟨pubKeyLine_no_nl k hk, ?_⟩
    rw [pubKeyLine_getLast?]
    decide
  rcases List.mem_cons.mp hl with rfl | hl
  · exact ⟨by decide, by decide⟩
  rcases List.mem_cons.mp hl with rfl | hl
  · exact ⟨by simp, by simp⟩
  rw [List.mem_flatten] at hl
  obtain ⟨e, he, hle⟩ := hl
  rw [List.mem_map] at he
  obtain ⟨f, hfmem, rfl⟩ := he
  obtain ⟨hp, _, hls, _, _⟩ := goodFile_parts f (hf f hfmem)
  exact signedEntryLines_line_facts signFn f.1 f.2 hp hls (hsig f hfmem) l hle

theorem cleanGo_entry_signed (signFn : List Char → List Char)
    (p : List Char) (ls : List (List Char))
    (hls : ∀ l ∈ ls, goodLine l = true) (hrun : runsOK 0 ls = true)
    (k : Nat) (rest : List (List Char)) :
    cleanGo 2 (signedEntryLines signFn p ls ++ rest) k =
      signedEntryLines signFn p ls ++ cleanGo 2 rest 1 := by
  simp only [signedEntryLines, List.cons_append, List.append_assoc, List.nil_append]
  rw [cleanGo, if_neg (by simp [headerLineS_not_blank])]
  rw [cleanGo_goodls ls hls 0 hrun rest]

theorem cleanGo_signedArch (signFn : List Char → List Char) (k : List Char)
    (files : List (List Char × List (List Char)))
    (hf : ∀ f ∈ files, goodFile f = true) :
    cleanGo 2 (pubKeyLine k :: tq :: [] ::
        (files.map (fun f => signedEntryLines signFn f.1 f.2)).flatten) 0 =
      pubKeyLine k :: tq :: [] ::
        (files.map (fun f => signedEntryLines signFn f.1 f.2)).flatten := by
  rw [cleanGo, if_neg (by simp [pubKeyLine_not_blank])]
  rw [cleanGo, if_neg (by decide)]
  rw [cleanGo, if_pos (by decide), if_pos (by decide)]
  congr 1
  congr 1
  congr 1
  induction files generalizing k with
  | nil => rfl
  | cons f fs ih =>
    obtain ⟨_, _, hls, hrun, _⟩ := goodFile_parts f (hf f (by simp))
    rw [List.map_cons, List.flatten_cons]
    rw [cleanGo_entry_signed signFn f.1 f.2 hls hrun 1]
    congr 1
    exact ih k (fun g hg => hf g (by simp [hg]))

theorem countP_signedEntry_zero (signFn : List Char → List Char)
    (p : List Char) (ls : List (List Char))
    (hls : ∀ l ∈ ls, goodLine l = true)
    (hshape : pubKeyShape (headerLineS p (signFn (joinWriteln ls))) = false) :
    (signedEntryLines signFn p ls).countP pubKeyShape = 0 := by
  rw [List.countP_eq_zero]
  intro l hl
  simp only [signedEntryLines, List.mem_append, List.mem_cons] at hl
  rcases hl with (hl | hl) | hl
  · subst hl
    simp [hshape]
  · obtain ⟨_, _, _, hpre, _, _⟩ := goodLine_spec l (hls l hl)
    simp [pubKeyShape_false_of_not_header l hpre]
  · rcases hl with hl | hl | hl
    · subst hl
      decide
    · subst hl
      decide
    · simp at hl
      subst hl
      decide

theorem countP_entry_zero (p : List Char) (ls : List (List Char))
    (hls : ∀ l ∈ ls, goodLine l = true) :
    (entryLines p ls).countP pubKeyShape = 0 := by
  rw [List.countP_eq_zero]
  intro l hl
  simp only [entryLines, List.mem_append, List.mem_cons] at hl
  rcases hl with (hl | hl) | hl
  · subst hl
    simp [headerLineU_not_pubKeyShape]
  · obtain ⟨_, _, _, hpre, _, _⟩ := goodLine_spec l (hls l hl)
    simp [pubKeyShape_false_of_not_header l hpre]
  · rcases hl with hl | hl | hl
    · subst hl
      decide
    · subst hl
      decide
    · simp at hl
      subst hl
      decide

theorem countP_flatten_zero (L : List (List (List Char)))
    (h : ∀ e ∈ L, e.countP pubKeyShape = 0) :
    L.flatten.countP pubKeyShape = 0 := by
  induction L with
  | nil => rfl
  | cons e L ih =>
    rw [List.flatten_cons, List.countP_append, h e (by simp),
      ih (fun x hx => h x (by simp [hx]))]

/-- C8: when signing is enabled the writer emits exactly one public-key
record — the key header followed by its terminator and blank separator —
as the very first lines of the (normalizer-processed) archive, before
every file record; when signing is disabled no line of the archive has the
public-key shape.  Stated over files whose paths, contents and signature
texts do not themselves collide with the record's shape. -/
theorem c8_pubkey_record (signFn : List Char → List Char) (k : List Char)
    (files : List (List Char × List (List Char)))
    (hf : ∀ f ∈ files, goodFile f = true)
    (hsig : ∀ f ∈ files, nl ∉ signFn (joinWriteln f.2) ∧
      pubKeyShape (headerLineS f.1 (signFn (joinWriteln f.2))) = false)
    (hk : nl ∉ k) :
    (rustLines (clean_up_text 2 (run_scraper_output true true k signFn
        (files.map (fun f => (f.1, joinWriteln f.2))))) =
      pubKeyLine k :: tq :: [] ::
        (files.map (fun f => signedEntryLines signFn f.1 f.2)).flatten ∧
     (rustLines (clean_up_text 2 (run_scraper_output true true k signFn
        (files.map (fun f => (f.1, joinWriteln f.2)))))).countP pubKeyShape = 1) ∧
    (rustLines (clean_up_text 2 (run_scraper_output false false k signFn
        (files.map (fun f => (f.1, joinWriteln f.2)))))).countP pubKeyShape = 0 := by
  have hbin : ∀ f ∈ files, is_binary_data (joinWriteln f.2) = false :=
    fun g hg => (goodFile_parts g (hf g hg)).2.2.2.2
  have hfacts := signedArch_line_facts signFn k files hf
    (fun g hg => (hsig g hg).1) hk
  have hrl : rustLines (joinWriteln (pubKeyLine k :: tq :: [] ::
      (files.map (fun f => signedEntryLines signFn f.1 f.2)).flatten)) =
      pubKeyLine k :: tq :: [] ::
        (files.map (fun f => signedEntryLines signFn f.1 f.2)).flatten :=
    rustLines_joinWriteln _ (fun l hl => (hfacts l hl).1)
      (fun l hl => (hfacts l hl).2)
  have hL : rustLines (clean_up_text 2 (run_scraper_output true true k signFn
      (files.map (fun f => (f.1, joinWriteln f.2))))) =
      pubKeyLine k :: tq :: [] ::
        (files.map (fun f => signedEntryLines signFn f.1 f.2)).flatten := by
    rw [encode_signed k signFn files hbin, clean_up_text, hrl, cleanLines,
      cleanGo_signedArch signFn k files hf, hrl]
  have hcount0 : ((files.map (fun f =>
      signedEntryLines signFn f.1 f.2)).flatten).countP pubKeyShape = 0 := by
    apply countP_flatten_zero
    intro e he
    rw [List.mem_map] at he
    obtain ⟨f, hfmem, rfl⟩ := he
    exact countP_signedEntry_zero signFn f.1 f.2
      (goodFile_parts f (hf f hfmem)).2.2.1 (hsig f hfmem).2
  refine ⟨⟨hL, ?_⟩, ?_⟩
  · rw [hL]
    simp [List.countP_cons, hcount0, pubKeyLine_shape]
    decide
  · rw [encode_unsigned false k signFn files hbin, clean_id_arch files hf,
      rustLines_archLines files hf]
    apply countP_flatten_zero
    intro e he
    rw [List.mem_map] at he
    obtain ⟨f, hfmem, rfl⟩ := he
    exact countP_entry_zero f.1 f.2 (goodFile_parts f (hf f hfmem)).2.2.1

/-- C8 witness: the record statement at one concrete signed file,
discharging the goodness and collision-freedom hypotheses by
evaluation. -/
theorem c8_pubkey_record_witness :
    (rustLines (clean_up_text 2 (run_scraper_output true true (str ("S0VZ"))
        (fun _ => str ("U0lH"))
        (([(str ("a.c"), [str ("int x;")])] :
          List (List Char × List (List Char))).map
            (fun f => (f.1, joinWriteln f.2))))) =
      pubKeyLine (str ("S0VZ")) :: tq :: [] ::
        (([(str ("a.c"), [str ("int x;")])] :
          List (List Char × List (List Char))).map
            (fun f => signedEntryLines (fun _ => str ("U0lH")) f.1 f.2)).flatten ∧
     (rustLines (clean_up_text 2 (run_scraper_output true true (str ("S0VZ"))
        (fun _ => str ("U0lH"))
        (([(str ("a.c"), [str ("int x;")])] :
          List (List Char × List (List Char))).map
            (fun f => (f.1, joinWriteln f.2)))))).countP pubKeyShape = 1) ∧
    (rustLines (clean_up_text 2 (run_scraper_output false false (str ("S0VZ"))
        (fun _ => str ("U0lH"))
        (([(str ("a.c"), [str ("int x;")])] :
          List (List Char × List (List Char))).map
            (fun f => (f.1, joinWriteln f.2)))))).countP pubKeyShape = 0 :=
  c8_pubkey_record (fun _ => str ("U0lH")) (str ("S0VZ"))
    [(str ("a.c"), [str ("int x;")])] (by decide) (by decide) (by decide)
